import Mathlib

/-!
# Verification of the opkg-lede core against its specification

Shallow embedding of the version algebra (`pkg.c`), dependency/constraint
logic (`pkg_depends.c`), package merge (`pkg.c`), state-flag serialization
(`pkg.c`), conffile modification check (`conffile.c`) and the dependency
resolver (`pkg_depends.c`), together with proofs and refutations of the
specification's claims.

C strings are modelled as `List Char`; the terminating NUL is represented by
the end of the list, so a list standing for a C string never contains a
character of code 0 (`nulFree`).  Machine `int` results are modelled as `Int`.
-/

namespace Opkg

/-! ## Version comparison (`pkg.c`, `verrevcmp` / `pkg_compare_versions`) -/

/-- The `order(x)` macro of `pkg.c`:
`(x) == '~' ? -1 : isdigit(x) ? 0 : !(x) ? 0 : isalpha(x) ? (x) : (x) + 256`. -/
def order (c : Char) : Int :=
  if c = '~' then -1
  else if c.isDigit then 0
  else if c.toNat = 0 then 0
  else if c.isAlpha then (c.toNat : Int)
  else (c.toNat : Int) + 256

/-- `true` iff the list (C string) starts with a digit; the empty list is the
string terminator, which is not a digit. -/
def headIsDigit : List Char → Bool
  | [] => false
  | c :: _ => c.isDigit

/-- The first inner loop of `verrevcmp`:
`while ((*val && !isdigit(*val)) || (*ref && !isdigit(*ref)))` comparing
`order(*val)` with `order(*ref)`, returning the difference on the first
mismatch (`Sum.inl`) or the remaining suffixes when both heads are a digit or
the string end (`Sum.inr`). -/
def ndLoopNil : List Char → Int ⊕ (List Char × List Char)
  | [] => .inr ([], [])
  | b :: bs =>
      if b.isDigit then .inr ([], b :: bs)
      else if order b = 0 then ndLoopNil bs
      else .inl (0 - order b)

def ndLoop : List Char → List Char → Int ⊕ (List Char × List Char)
  | [], r => ndLoopNil r
  | a :: as, [] =>
      if a.isDigit then .inr (a :: as, [])
      else if order a = 0 then ndLoop as []
      else .inl (order a - 0)
  | a :: as, b :: bs =>
      if a.isDigit ∧ b.isDigit then .inr (a :: as, b :: bs)
      else if order a = order b then ndLoop as bs
      else .inl (order a - order b)

/-- One-step unfolding of `ndLoopNil`. -/
theorem ndLoopNil_cons (b : Char) (bs : List Char) :
    ndLoopNil (b :: bs) = if b.isDigit then .inr ([], b :: bs)
      else if order b = 0 then ndLoopNil bs else .inl (0 - order b) := rfl

/-- The digit lock-step loop of `verrevcmp`:
`while (isdigit(*val) && isdigit(*ref)) { if (!first_diff) first_diff = *val - *ref; ... }`. -/
def digitLockstep : List Char → List Char → Int → Int × List Char × List Char
  | a :: as, b :: bs, fd =>
      if a.isDigit && b.isDigit then
        digitLockstep as bs (if fd = 0 then (a.toNat : Int) - (b.toNat : Int) else fd)
      else (fd, a :: as, b :: bs)
  | as, bs, fd => (fd, as, bs)

/-- The outer `while (*val || *ref)` loop of `verrevcmp`, with explicit fuel
(one unit per iteration; `verrevcmp` supplies enough fuel for any input, as
`vrLoop_key` shows: any fuel above the total length determines the result). -/
def vrLoop : Nat → List Char → List Char → Int
  | 0, _, _ => 0
  | fuel+1, val, ref =>
      if val = [] ∧ ref = [] then 0
      else
        match ndLoop val ref with
        | .inl r => r
        | .inr (v, r) =>
            let v' := v.dropWhile (· = '0')
            let r' := r.dropWhile (· = '0')
            match digitLockstep v' r' 0 with
            | (fd, v'', r'') =>
              if headIsDigit v'' then 1
              else if headIsDigit r'' then -1
              else if fd ≠ 0 then fd
              else vrLoop fuel v'' r''

/-- `verrevcmp` of `pkg.c` (a NULL argument is treated as `""`, i.e. `[]`). -/
def verrevcmp (val ref : List Char) : Int :=
  vrLoop (val.length + ref.length + 1) val ref

/-- A parsed version: epoch (default 0), upstream part, revision
(empty when absent, as `pkg_get_string` yields NULL, which `verrevcmp`
treats as `""`). -/
structure Version where
  epoch : Nat
  version : List Char
  revision : List Char
deriving DecidableEq, Repr

/-- `pkg_compare_versions` of `pkg.c`: epochs first, then the upstream
strings via `verrevcmp`, then the revisions via `verrevcmp`. -/
def pkg_compare_versions (a b : Version) : Int :=
  if a.epoch > b.epoch then 1
  else if a.epoch < b.epoch then -1
  else
    let r := verrevcmp a.version b.version
    if r ≠ 0 then r
    else verrevcmp a.revision b.revision

/-- A C string content: no embedded NUL characters. -/
def nulFree (l : List Char) : Bool := l.all (fun c => c.toNat ≠ 0)

/-- Both string fields of a version are valid C string contents. -/
def validVersion (v : Version) : Bool := nulFree v.version && nulFree v.revision

/-! ## Version parsing (`pkg_parse.c`, `parse_version`) -/

/-- C `isspace` in the C locale. -/
def isSpace (c : Char) : Bool :=
  c = ' ' || c = '\t' || c = '\n' || c.toNat = 11 || c.toNat = 12 || c = '\r'

/-- Decimal value of a digit string, accumulated most-significant first, as
`strtoul` computes it. -/
def digitsToNat (l : List Char) : Nat := l.foldl (fun a c => 10 * a + (c.toNat - 48)) 0

/-- `parse_version` of `pkg_parse.c`: skip a `"Version:"` prefix and leading
whitespace; if a `':'` occurs, the digits before it (`strtoul`) are the epoch
and the rest follows the first `':'`; the revision is everything after the
last `'-'`, when one occurs. -/
def parse_version (vstr : List Char) : Version :=
  let s0 := if vstr.take 8 = "Version:".toList then vstr.drop 8 else vstr
  let s1 := s0.dropWhile isSpace
  let epoch := if s1.contains ':' then digitsToNat (s1.takeWhile Char.isDigit) else 0
  let s2 := if s1.contains ':' then (s1.dropWhile (· ≠ ':')).tail else s1
  let hasRev := s2.contains '-'
  let revision := if hasRev then (s2.reverse.takeWhile (· ≠ '-')).reverse else []
  let version := if hasRev then ((s2.reverse.dropWhile (· ≠ '-')).tail).reverse else s2
  ⟨epoch, version, revision⟩

/-! ## Dependency atoms and constraint satisfaction (`pkg_depends.c`) -/

/-- `enum version_constraint`. -/
inductive Constraint
  | NONE | EARLIER | EARLIER_EQUAL | EQUAL | LATER_EQUAL | LATER
deriving DecidableEq, Repr

/-- `depend_t`: target abstract-package name, constraint and raw version
string (NULL, i.e. `none`, when no constraint was parsed). -/
structure DepAtom where
  name : String
  constraint : Constraint
  version : Option (List Char)
deriving DecidableEq, Repr

/-- `version_constraints_satisfied` of `pkg_depends.c`: a `NONE` constraint
is satisfied; otherwise the atom's version string is parsed into a fresh
package and compared with `pkg_compare_versions`, and the if-chain of the
source decides. -/
def version_constraints_satisfied (depends : DepAtom) (pkgVersion : Version) : Bool :=
  if depends.constraint = .NONE then true
  else
    let temp := parse_version (depends.version.getD [])
    let comparison := pkg_compare_versions pkgVersion temp
    if depends.constraint = .EARLIER ∧ comparison < 0 then true
    else if depends.constraint = .LATER ∧ comparison > 0 then true
    else if comparison = 0 then true
    else if depends.constraint = .LATER_EQUAL ∧ comparison ≥ 0 then true
    else if depends.constraint = .EARLIER_EQUAL ∧ comparison ≤ 0 then true
    else false

/-! ## A zero-padded lexicographic comparison on integer key sequences

`verrevcmp` is proved equal (in sign) to `lexPad` applied to a key
translation of the two strings; the order-theoretic properties of
`pkg_compare_versions` then follow from those of `lexPad`. -/

/-- Sign of an `Int` comparison result as an `Ordering`. -/
def ordOf (i : Int) : Ordering := if i < 0 then .lt else if i = 0 then .eq else .gt

/-- Comparison of the all-zero padding against a sequence. -/
def padCmp : List Int → Ordering
  | [] => .eq
  | b :: bs => (compare (0:Int) b).then (padCmp bs)

/-- Lexicographic comparison of two integer sequences, the shorter one being
padded with zeros at the end. -/
def lexPad : List Int → List Int → Ordering
  | [], bs => padCmp bs
  | a :: as, [] => (compare a (0:Int)).then (lexPad as [])
  | a :: as, b :: bs => (compare a b).then (lexPad as bs)

/-- Uniform one-step unfolding of `lexPad` (head default 0, tail of `[]` is `[]`). -/
theorem lexPad_step (a b : List Int) (h : ¬(a = [] ∧ b = [])) :
    lexPad a b = (compare a.headI b.headI).then (lexPad a.tail b.tail) := by
  match a, b with
  | [], [] => exact absurd ⟨rfl, rfl⟩ h
  | [], b :: bs => rfl
  | a :: as, [] => rfl
  | a :: as, b :: bs => rfl

theorem lexPad_nil_nil : lexPad [] [] = .eq := rfl

theorem lexPad_swap (a b : List Int) : lexPad a b = (lexPad b a).swap := by
  have H : ∀ (n : Nat) (a b : List Int), a.length + b.length ≤ n → lexPad a b = (lexPad b a).swap := by
    intro n
    induction n with
    | zero =>
        intro a b hlen
        match a, b with
        | [], [] => rfl
        | a :: as, _ => simp at hlen
        | [], b :: bs => simp at hlen
    | succ n ih =>
        intro a b hlen
        by_cases hnil : a = [] ∧ b = []
        · rw [hnil.1, hnil.2]; rfl
        · have hnil' : ¬(b = [] ∧ a = []) := fun h => hnil ⟨h.2, h.1⟩
          rw [lexPad_step a b hnil, lexPad_step b a hnil']
          have hcmp : compare a.headI b.headI = (compare b.headI a.headI).swap :=
            Eq.symm (Batteries.OrientedCmp.symm _ _)
          have htail : lexPad a.tail b.tail = (lexPad b.tail a.tail).swap := by
            apply ih
            have h1 : a.tail.length ≤ a.length := by cases a <;> simp [List.tail]
            have h2 : b.tail.length ≤ b.length := by cases b <;> simp [List.tail]
            rcases Classical.em (a = []) with rfl | ha
            · cases b with
              | nil => exact absurd ⟨rfl, rfl⟩ hnil
              | cons x xs => simp at hlen ⊢; omega
            · cases a with
              | nil => exact absurd rfl ha
              | cons x xs => simp at hlen ⊢; omega
          rw [hcmp, htail]
          cases compare b.headI a.headI <;> simp [Ordering.then, Ordering.swap]
  exact H (a.length + b.length) a b le_rfl

/-- Reading `eq` and `lt` outcomes out of `Ordering.then`. -/
theorem then_eq_eq (x y : Ordering) : x.then y = .eq ↔ x = .eq ∧ y = .eq := by
  cases x <;> simp [Ordering.then]

theorem then_eq_lt (x y : Ordering) : x.then y = .lt ↔ x = .lt ∨ (x = .eq ∧ y = .lt) := by
  cases x <;> simp [Ordering.then]

/-- From `lexPad a b = eq`, the two sequences are interchangeable on the left. -/
theorem lexPad_congr_left (a b : List Int) (hab : lexPad a b = .eq) (c : List Int) :
    lexPad a c = lexPad b c := by
  have H : ∀ (n : Nat) (a b : List Int), a.length + b.length ≤ n → lexPad a b = .eq →
      ∀ c, lexPad a c = lexPad b c := by
    intro n
    induction n with
    | zero =>
        intro a b hlen
        match a, b with
        | [], [] => intro _ _; rfl
        | a :: as, _ => simp at hlen
        | [], b :: bs => simp at hlen
    | succ n ih =>
        intro a b hlen hab c
        match a, b with
        | [], [] => rfl
        | [], b :: bs =>
            have hab' : (compare (0:Int) b).then (lexPad [] bs) = .eq := hab
            rw [then_eq_eq] at hab'
            have hb : (0:Int) = b := compare_eq_iff_eq.mp hab'.1
            have IH := ih [] bs (by simp at hlen ⊢; omega) hab'.2
            cases c with
            | nil =>
                show Ordering.eq = (compare b 0).then (lexPad bs [])
                rw [← hb, compare_eq_iff_eq.mpr rfl]
                have := IH []
                simpa [lexPad, padCmp, Ordering.then] using this
            | cons y ys =>
                show (compare (0:Int) y).then (lexPad [] ys)
                    = (compare b y).then (lexPad bs ys)
                rw [← hb]
                congr 1
                exact IH ys
        | a :: as, [] =>
            have hab' : (compare a (0:Int)).then (lexPad as []) = .eq := hab
            rw [then_eq_eq] at hab'
            have ha : a = (0:Int) := compare_eq_iff_eq.mp hab'.1
            have IH := ih as [] (by simp at hlen ⊢; omega) hab'.2
            cases c with
            | nil =>
                show (compare a 0).then (lexPad as []) = Ordering.eq
                rw [ha, compare_eq_iff_eq.mpr rfl]
                have := IH []
                simpa [lexPad, padCmp, Ordering.then] using this
            | cons y ys =>
                show (compare a y).then (lexPad as ys)
                    = (compare (0:Int) y).then (lexPad [] ys)
                rw [ha]
                congr 1
                exact IH ys
        | a :: as, b :: bs =>
            have hab' : (compare a b).then (lexPad as bs) = .eq := hab
            rw [then_eq_eq] at hab'
            have hb : a = b := compare_eq_iff_eq.mp hab'.1
            have IH := ih as bs (by simp at hlen ⊢; omega) hab'.2
            cases c with
            | nil =>
                show (compare a 0).then (lexPad as []) = (compare b 0).then (lexPad bs [])
                rw [hb]
                congr 1
                exact IH []
            | cons y ys =>
                show (compare a y).then (lexPad as ys) = (compare b y).then (lexPad bs ys)
                rw [hb]
                congr 1
                exact IH ys
  exact H (a.length + b.length) a b le_rfl hab c

/-- From `lexPad b c = eq`, the two sequences are interchangeable on the right. -/
theorem lexPad_congr_right (b c : List Int) (hbc : lexPad b c = .eq) (a : List Int) :
    lexPad a b = lexPad a c := by
  have h1 : lexPad b a = lexPad c a := lexPad_congr_left b c hbc a
  rw [lexPad_swap a b, lexPad_swap a c, h1]

theorem lexPad_trans_lt (a b c : List Int) (hab : lexPad a b = .lt) (hbc : lexPad b c = .lt) :
    lexPad a c = .lt := by
  have H : ∀ (n : Nat) (a b c : List Int), a.length + b.length + c.length ≤ n →
      lexPad a b = .lt → lexPad b c = .lt → lexPad a c = .lt := by
    intro n
    induction n with
    | zero =>
        intro a b c hlen hab hbc
        match a, b, c with
        | [], [], [] => simp [lexPad_nil_nil] at hab
        | a :: as, _, _ => simp at hlen
        | [], b :: bs, _ => simp at hlen
        | [], [], c :: cs => simp at hlen
    | succ n ih =>
        intro a b c hlen hab hbc
        have hnab : ¬(a = [] ∧ b = []) := by
          rintro ⟨rfl, rfl⟩; simp [lexPad_nil_nil] at hab
        have hnbc : ¬(b = [] ∧ c = []) := by
          rintro ⟨rfl, rfl⟩; simp [lexPad_nil_nil] at hbc
        have hnac : ¬(a = [] ∧ c = []) := by
          rintro ⟨rfl, rfl⟩
          -- b must be nonempty; derive a contradiction from hab, hbc via swap
          rcases Classical.em (b = []) with rfl | hb
          · exact hnab ⟨rfl, rfl⟩
          · have h1 := lexPad_swap ([] : List Int) b
            rw [hab] at h1
            have h2 : lexPad b [] = .gt := by
              cases h3 : lexPad b [] <;> rw [h3] at h1 <;> simp [Ordering.swap] at h1 ⊢
            rw [h2] at hbc; exact absurd hbc (by simp)
        rw [lexPad_step a b hnab] at hab
        rw [lexPad_step b c hnbc] at hbc
        rw [lexPad_step a c hnac]
        have hlen' : a.tail.length + b.tail.length + c.tail.length ≤ n := by
          have h1 : a.tail.length ≤ a.length := by cases a <;> simp [List.tail]
          have h2 : b.tail.length ≤ b.length := by cases b <;> simp [List.tail]
          have h3 : c.tail.length ≤ c.length := by cases c <;> simp [List.tail]
          rcases Classical.em (a = []) with rfl | ha
          · rcases Classical.em (b = []) with rfl | hb
            · exact absurd ⟨rfl, rfl⟩ hnab
            · cases b with
              | nil => exact absurd rfl hb
              | cons x xs => simp at hlen ⊢; omega
          · cases a with
            | nil => exact absurd rfl ha
            | cons x xs => simp at hlen ⊢; omega
        cases h1 : compare a.headI b.headI <;> rw [h1] at hab <;>
          cases h2 : compare b.headI c.headI <;> rw [h2] at hbc <;>
            simp [Ordering.then] at hab hbc
        · -- lt, lt
          have : compare a.headI c.headI = .lt := Batteries.TransCmp.lt_trans h1 h2
          rw [this]; rfl
        · -- lt, eq
          have he : b.headI = c.headI := compare_eq_iff_eq.mp h2
          rw [← he, h1]; rfl
        · -- eq, lt
          have he : a.headI = b.headI := compare_eq_iff_eq.mp h1
          rw [he, h2]; rfl
        · -- eq, eq
          have he1 : a.headI = b.headI := compare_eq_iff_eq.mp h1
          have he2 : b.headI = c.headI := compare_eq_iff_eq.mp h2
          rw [he1, he2, compare_eq_iff_eq.mpr rfl]
          simpa [Ordering.then] using ih a.tail b.tail c.tail hlen' hab hbc
  exact H (a.length + b.length + c.length) a b c le_rfl hab hbc

/-! ## Character facts used by the key translation -/

theorem char_alpha_bounds (c : Char) (h : c.isAlpha = true) : 65 ≤ c.toNat ∧ c.toNat ≤ 122 := by
  simp only [Char.isAlpha, Char.isUpper, Char.isLower, Bool.or_eq_true, Bool.and_eq_true,
    decide_eq_true_eq] at h
  rcases h with ⟨h1, h2⟩ | ⟨h1, h2⟩
  · exact ⟨h1, le_trans (show c.toNat ≤ 90 from h2) (by omega)⟩
  · exact ⟨le_trans (by omega) (show 97 ≤ c.toNat from h1), h2⟩

theorem char_digit_bounds (c : Char) (h : c.isDigit = true) : 48 ≤ c.toNat ∧ c.toNat ≤ 57 := by
  simp only [Char.isDigit, Bool.and_eq_true, decide_eq_true_eq] at h
  exact ⟨h.1, h.2⟩

theorem char_toNat_inj (a b : Char) (h : a.toNat = b.toNat) : a = b := by
  rw [← Char.ofNat_toNat a, ← Char.ofNat_toNat b, h]

theorem order_ne_zero {c : Char} (hd : ¬c.isDigit = true) (hz : c.toNat ≠ 0) : order c ≠ 0 := by
  unfold order
  by_cases h1 : c = '~'
  · rw [if_pos h1]; simp
  · rw [if_neg h1, if_neg hd, if_neg hz]
    by_cases h2 : c.isAlpha = true
    · rw [if_pos h2]
      exact_mod_cast hz
    · rw [if_neg h2]
      have : 0 < c.toNat := Nat.pos_of_ne_zero hz
      omega

theorem order_inj {a b : Char} (ha : ¬a.isDigit = true) (hb : ¬b.isDigit = true)
    (haz : a.toNat ≠ 0) (hbz : b.toNat ≠ 0) (h : order a = order b) : a = b := by
  unfold order at h
  by_cases ta : a = '~' <;> by_cases tb : b = '~'
  · rw [ta, tb]
  · exfalso
    rw [if_pos ta, if_neg tb, if_neg hb, if_neg hbz] at h
    by_cases hba : b.isAlpha = true
    · rw [if_pos hba] at h
      have := char_alpha_bounds b hba
      omega
    · rw [if_neg hba] at h
      have : 0 < b.toNat := Nat.pos_of_ne_zero hbz
      omega
  · exfalso
    rw [if_pos tb, if_neg ta, if_neg ha, if_neg haz] at h
    by_cases haa : a.isAlpha = true
    · rw [if_pos haa] at h
      have := char_alpha_bounds a haa
      omega
    · rw [if_neg haa] at h
      have : 0 < a.toNat := Nat.pos_of_ne_zero haz
      omega
  · rw [if_neg ta, if_neg ha, if_neg haz, if_neg tb, if_neg hb, if_neg hbz] at h
    by_cases haa : a.isAlpha = true <;> by_cases hba : b.isAlpha = true
    · rw [if_pos haa, if_pos hba] at h
      exact char_toNat_inj a b (by exact_mod_cast h)
    · exfalso
      rw [if_pos haa, if_neg hba] at h
      have h1 := char_alpha_bounds a haa
      have : 0 < b.toNat := Nat.pos_of_ne_zero hbz
      omega
    · exfalso
      rw [if_neg haa, if_pos hba] at h
      have h1 := char_alpha_bounds b hba
      have : 0 < a.toNat := Nat.pos_of_ne_zero haz
      omega
    · rw [if_neg haa, if_neg hba] at h
      exact char_toNat_inj a b (by omega)

/-! ## The key translation of a version string -/

/-- The predicate of the non-digit scanning loop. -/
def ndP (c : Char) : Bool := !c.isDigit

/-- Decimal value of a digit run (most significant digit first). -/
def digitVal : List Char → Nat
  | [] => 0
  | c :: cs => (c.toNat - 48) * 10 ^ cs.length + digitVal cs

/-- Key translation with fuel: a string becomes, per alternating
(non-digit run, digit run) token, the orders of the non-digit run, then a
separator `0`, then the value of the digit run. -/
def keyF : Nat → List Char → List Int
  | 0, _ => []
  | _+1, [] => []
  | f+1, c :: cs =>
      let s := c :: cs
      let n := s.takeWhile ndP
      let r1 := s.dropWhile ndP
      let d := r1.takeWhile Char.isDigit
      let r2 := r1.dropWhile Char.isDigit
      n.map order ++ 0 :: (digitVal d : Int) :: keyF f r2

/-- Key translation of a version string. -/
def key (s : List Char) : List Int := keyF (s.length + 1) s

theorem takeWhile_dropWhile_length (p : Char → Bool) (s : List Char) :
    (s.takeWhile p).length + (s.dropWhile p).length = s.length := by
  conv_rhs => rw [← List.takeWhile_append_dropWhile (p := p) (l := s)]
  rw [List.length_append]

theorem key_rest_length_lt (c : Char) (cs : List Char) :
    (((c :: cs).dropWhile ndP).dropWhile Char.isDigit).length < (c :: cs).length := by
  by_cases hc : ndP c = true
  · have h1 : (c :: cs).dropWhile ndP = cs.dropWhile ndP := List.dropWhile_cons_of_pos hc
    rw [h1]
    calc ((cs.dropWhile ndP).dropWhile Char.isDigit).length
        ≤ (cs.dropWhile ndP).length := (List.dropWhile_sublist _).length_le
      _ ≤ cs.length := (List.dropWhile_sublist _).length_le
      _ < (c :: cs).length := by simp
  · have h1 : (c :: cs).dropWhile ndP = c :: cs := List.dropWhile_cons_of_neg hc
    have hdig : c.isDigit = true := by
      simp [ndP] at hc; exact hc
    rw [h1, List.dropWhile_cons_of_pos hdig]
    calc (cs.dropWhile Char.isDigit).length
        ≤ cs.length := (List.dropWhile_sublist _).length_le
      _ < (c :: cs).length := by simp

theorem keyF_congr : ∀ (f f' : Nat) (s : List Char), s.length < f → s.length < f' →
    keyF f s = keyF f' s := by
  intro f
  induction f with
  | zero => intro f' s h; omega
  | succ f ih =>
      intro f' s h h'
      match f', s with
      | f'+1, [] => rfl
      | f'+1, c :: cs =>
          show _ ++ 0 :: _ :: keyF f _ = _ ++ 0 :: _ :: keyF f' _
          congr 1
          congr 2
          apply ih
          · exact lt_of_lt_of_le (key_rest_length_lt c cs) (Nat.lt_succ_iff.mp h)
          · exact lt_of_lt_of_le (key_rest_length_lt c cs) (Nat.lt_succ_iff.mp h')

theorem key_unfold (c : Char) (cs : List Char) :
    key (c :: cs) = ((c :: cs).takeWhile ndP).map order ++
      0 :: (digitVal (((c :: cs).dropWhile ndP).takeWhile Char.isDigit) : Int) ::
      key (((c :: cs).dropWhile ndP).dropWhile Char.isDigit) := by
  show _ ++ 0 :: _ :: keyF ((c :: cs).length) _ = _ ++ 0 :: _ :: key _
  rw [keyF_congr ((c :: cs).length)
    ((((c :: cs).dropWhile ndP).dropWhile Char.isDigit).length + 1) _
    (key_rest_length_lt c cs) (Nat.lt_succ_self _)]
  rfl

/-! ## Characterization of the non-digit loop -/

theorem ordOf_sub (x y : Int) : ordOf (x - y) = compare x y := by
  rcases lt_trichotomy x y with h | h | h
  · rw [compare_lt_iff_lt.mpr h]; simp [ordOf]; omega
  · rw [h, compare_eq_iff_eq.mpr rfl]; simp [ordOf]
  · rw [compare_gt_iff_gt.mpr h]
    have h1 : ¬(x - y < 0) := by omega
    have h2 : ¬(x - y = 0) := by omega
    simp [ordOf, h1, h2]

theorem then_of_ne_eq {x : Ordering} (y : Ordering) (h : x ≠ .eq) : x.then y = x := by
  cases x <;> simp_all [Ordering.then]

theorem compare_zero_ne_eq {y : Int} (h : y ≠ 0) : compare (0:Int) y ≠ .eq := by
  intro hc; exact h (compare_eq_iff_eq.mp hc).symm

theorem compare_ne_eq_of_ne {x y : Int} (h : x ≠ y) : compare x y ≠ .eq := by
  intro hc; exact h (compare_eq_iff_eq.mp hc)

theorem nulFree_cons {c : Char} {l : List Char} (h : nulFree (c :: l) = true) :
    c.toNat ≠ 0 ∧ nulFree l = true := by
  simp [nulFree] at h ⊢
  exact h

theorem order_digit {c : Char} (h : c.isDigit = true) : order c = 0 := by
  have hne : c ≠ '~' := by rintro rfl; exact absurd h (by decide)
  unfold order
  rw [if_neg hne, if_pos h]

theorem lexPad_nil_cons (y : Int) (ys : List Int) :
    lexPad [] (y :: ys) = (compare (0:Int) y).then (lexPad [] ys) := rfl

theorem lexPad_cons_nil (x : Int) (xs : List Int) :
    lexPad (x :: xs) [] = (compare x (0:Int)).then (lexPad xs []) := rfl

theorem lexPad_cons_cons (x y : Int) (xs ys : List Int) :
    lexPad (x :: xs) (y :: ys) = (compare x y).then (lexPad xs ys) := rfl

theorem decided_left_nil {ob : Int} (hob : ob ≠ 0) (rest : List Int) :
    ordOf (0 - ob) = lexPad [] (ob :: rest) := by
  rw [lexPad_nil_cons, then_of_ne_eq _ (compare_zero_ne_eq hob), ordOf_sub]

theorem decided_right_nil {oa : Int} (hoa : oa ≠ 0) (rest : List Int) :
    ordOf (oa - 0) = lexPad (oa :: rest) [] := by
  rw [lexPad_cons_nil, then_of_ne_eq _ (compare_ne_eq_of_ne hoa), ordOf_sub]

theorem decided_cons_cons {oa ob : Int} (hne : oa ≠ ob) (r1 r2 : List Int) :
    ordOf (oa - ob) = lexPad (oa :: r1) (ob :: r2) := by
  rw [lexPad_cons_cons, then_of_ne_eq _ (compare_ne_eq_of_ne hne), ordOf_sub]

theorem ndLoop_spec : ∀ (v r : List Char), nulFree v = true → nulFree r = true →
    (∀ x, ndLoop v r = .inl x →
        ordOf x = lexPad ((v.takeWhile ndP).map order) ((r.takeWhile ndP).map order) ∧ x ≠ 0) ∧
    (∀ v' r', ndLoop v r = .inr (v', r') →
        (v.takeWhile ndP).map order = (r.takeWhile ndP).map order ∧
        v' = v.dropWhile ndP ∧ r' = r.dropWhile ndP) := by
  intro v
  induction v with
  | nil =>
      intro r hv hr
      cases r with
      | nil =>
          refine ⟨fun x hx => by simp [ndLoop, ndLoopNil] at hx, fun v' r' hx => ?_⟩
          simp only [ndLoop, ndLoopNil, Sum.inr.injEq, Prod.mk.injEq] at hx
          obtain ⟨h1, h2⟩ := hx
          subst h1; subst h2
          exact ⟨rfl, rfl, rfl⟩
      | cons b bs =>
          obtain ⟨hb0, hbs⟩ := nulFree_cons hr
          by_cases hbd : b.isDigit = true
          · have hstep : ndLoop [] (b :: bs) = .inr ([], b :: bs) := by
              rw [show ndLoop [] (b :: bs) = ndLoopNil (b :: bs) from rfl, ndLoopNil_cons,
                if_pos hbd]
            refine ⟨fun x hx => ?_, fun v' r' hx => ?_⟩
            · rw [hstep] at hx; exact absurd hx (by simp)
            · rw [hstep] at hx
              injection hx with hx
              injection hx with h1 h2
              subst h1; subst h2
              have hnd : ndP b = false := by simp [ndP, hbd]
              refine ⟨?_, rfl, ?_⟩
              · rw [List.takeWhile_nil, List.takeWhile_cons_of_neg (by simp [hnd])]
              · rw [List.dropWhile_cons_of_neg (by simp [hnd])]
          · have hbo : order b ≠ 0 := order_ne_zero hbd hb0
            have hstep : ndLoop [] (b :: bs) = .inl (0 - order b) := by
              rw [show ndLoop [] (b :: bs) = ndLoopNil (b :: bs) from rfl, ndLoopNil_cons,
                if_neg (by simp [hbd]), if_neg hbo]
            refine ⟨fun x hx => ?_, fun v' r' hx => ?_⟩
            · rw [hstep] at hx
              injection hx with hx
              subst hx
              have hnd : ndP b = true := by simp [ndP, hbd]
              rw [List.takeWhile_nil, List.takeWhile_cons_of_pos hnd]
              refine ⟨?_, by omega⟩
              simpa using decided_left_nil hbo ((bs.takeWhile ndP).map order)
            · rw [hstep] at hx; exact absurd hx (by simp)
  | cons a as ih =>
      intro r hv hr
      obtain ⟨ha0, has⟩ := nulFree_cons hv
      cases r with
      | nil =>
          by_cases had : a.isDigit = true
          · have hstep : ndLoop (a :: as) [] = .inr (a :: as, []) := by
              simp [ndLoop, had]
            refine ⟨fun x hx => ?_, fun v' r' hx => ?_⟩
            · rw [hstep] at hx; exact absurd hx (by simp)
            · rw [hstep] at hx
              injection hx with hx
              injection hx with h1 h2
              subst h1; subst h2
              have hnd : ndP a = false := by simp [ndP, had]
              refine ⟨?_, ?_, rfl⟩
              · rw [List.takeWhile_nil, List.takeWhile_cons_of_neg (by simp [hnd])]
              · rw [List.dropWhile_cons_of_neg (by simp [hnd])]
          · have hao : order a ≠ 0 := order_ne_zero had ha0
            have hstep : ndLoop (a :: as) [] = .inl (order a - 0) := by
              simp [ndLoop, had, hao]
            refine ⟨fun x hx => ?_, fun v' r' hx => ?_⟩
            · rw [hstep] at hx
              injection hx with hx
              subst hx
              have hnd : ndP a = true := by simp [ndP, had]
              rw [List.takeWhile_cons_of_pos hnd, List.takeWhile_nil]
              refine ⟨?_, by omega⟩
              simpa using decided_right_nil hao ((as.takeWhile ndP).map order)
            · rw [hstep] at hx; exact absurd hx (by simp)
      | cons b bs =>
          obtain ⟨hb0, hbs⟩ := nulFree_cons hr
          by_cases hboth : a.isDigit = true ∧ b.isDigit = true
          · have hstep : ndLoop (a :: as) (b :: bs) = .inr (a :: as, b :: bs) := by
              simp [ndLoop, hboth]
            refine ⟨fun x hx => ?_, fun v' r' hx => ?_⟩
            · rw [hstep] at hx; exact absurd hx (by simp)
            · rw [hstep] at hx
              injection hx with hx
              injection hx with h1 h2
              subst h1; subst h2
              have hnda : ndP a = false := by simp [ndP, hboth.1]
              have hndb : ndP b = false := by simp [ndP, hboth.2]
              refine ⟨?_, ?_, ?_⟩
              · rw [List.takeWhile_cons_of_neg (by simp [hnda]),
                  List.takeWhile_cons_of_neg (by simp [hndb])]
              · rw [List.dropWhile_cons_of_neg (by simp [hnda])]
              · rw [List.dropWhile_cons_of_neg (by simp [hndb])]
          · by_cases heq : order a = order b
            · -- both heads are non-digit here; the loop advances on both sides
              have hand : ¬a.isDigit = true := by
                intro had
                have hbd : ¬b.isDigit = true := fun hbd => hboth ⟨had, hbd⟩
                exact order_ne_zero hbd hb0 (heq ▸ order_digit had)
              have hbnd : ¬b.isDigit = true := by
                intro hbd
                have had : ¬a.isDigit = true := fun had => hboth ⟨had, hbd⟩
                exact order_ne_zero had ha0 (heq.trans (order_digit hbd))
              have hnda : ndP a = true := by simp [ndP, hand]
              have hndb : ndP b = true := by simp [ndP, hbnd]
              have hstep : ndLoop (a :: as) (b :: bs) = ndLoop as bs := by
                simp [ndLoop, hboth, heq]
              obtain ⟨IH1, IH2⟩ := ih bs has hbs
              refine ⟨fun x hx => ?_, fun v' r' hx => ?_⟩
              · rw [hstep] at hx
                obtain ⟨IH1a, IH1b⟩ := IH1 x hx
                rw [List.takeWhile_cons_of_pos hnda, List.takeWhile_cons_of_pos hndb]
                refine ⟨?_, IH1b⟩
                simp only [List.map_cons]
                rw [lexPad_cons_cons, heq, compare_eq_iff_eq.mpr rfl]
                exact IH1a
              · rw [hstep] at hx
                obtain ⟨IH2a, IH2b, IH2c⟩ := IH2 v' r' hx
                rw [List.takeWhile_cons_of_pos hnda, List.takeWhile_cons_of_pos hndb,
                  List.dropWhile_cons_of_pos hnda, List.dropWhile_cons_of_pos hndb]
                simp only [List.map_cons, heq, IH2a, IH2b, IH2c]
                exact ⟨trivial, trivial, trivial⟩
            · -- orders differ: the loop returns the difference
              have hstep : ndLoop (a :: as) (b :: bs) = .inl (order a - order b) := by
                simp [ndLoop, hboth, heq]
              refine ⟨fun x hx => ?_, fun v' r' hx => ?_⟩
              · rw [hstep] at hx
                injection hx with hx
                subst hx
                refine ⟨?_, by intro hz; exact heq (by omega)⟩
                by_cases had : a.isDigit = true
                · have hbd : ¬b.isDigit = true := fun hbd => hboth ⟨had, hbd⟩
                  have hao : order a = 0 := order_digit had
                  have hbo : order b ≠ 0 := order_ne_zero hbd hb0
                  have hnda : ndP a = false := by simp [ndP, had]
                  have hndb : ndP b = true := by simp [ndP, hbd]
                  rw [List.takeWhile_cons_of_neg (by simp [hnda]),
                    List.takeWhile_cons_of_pos hndb]
                  simp only [List.map_nil, List.map_cons]
                  rw [hao]
                  exact decided_left_nil hbo ((bs.takeWhile ndP).map order)
                · have hao : order a ≠ 0 := order_ne_zero had ha0
                  have hnda : ndP a = true := by simp [ndP, had]
                  by_cases hbd : b.isDigit = true
                  · have hbo : order b = 0 := order_digit hbd
                    have hndb : ndP b = false := by simp [ndP, hbd]
                    rw [List.takeWhile_cons_of_pos hnda,
                      List.takeWhile_cons_of_neg (by simp [hndb])]
                    simp only [List.map_cons, List.map_nil]
                    rw [hbo]
                    exact decided_right_nil hao ((as.takeWhile ndP).map order)
                  · have hndb : ndP b = true := by simp [ndP, hbd]
                    rw [List.takeWhile_cons_of_pos hnda, List.takeWhile_cons_of_pos hndb]
                    simp only [List.map_cons]
                    exact decided_cons_cons heq _ _
              · rw [hstep] at hx
                exact absurd hx (by simp)

/-! ## Appending continuations below a decided or equal prefix -/

theorem lexPad_append_eq (xs u w : List Int) :
    lexPad (xs ++ u) (xs ++ w) = lexPad u w := by
  induction xs with
  | nil => rfl
  | cons x xs ih =>
      show (compare x x).then (lexPad (xs ++ u) (xs ++ w)) = lexPad u w
      rw [compare_eq_iff_eq.mpr rfl, ih]
      rfl

theorem lexPad_append_lt (m₁ m₂ : List Int) (u w : List Int)
    (h : lexPad m₁ m₂ = .lt) (h₁ : ∀ x ∈ m₁, x ≠ 0) (h₂ : ∀ x ∈ m₂, x ≠ 0) :
    lexPad (m₁ ++ 0 :: u) (m₂ ++ 0 :: w) = .lt := by
  induction m₁ generalizing m₂ with
  | nil =>
      cases m₂ with
      | nil => simp [lexPad_nil_nil] at h
      | cons y ys =>
          have h' : (compare (0:Int) y).then (padCmp ys) = .lt := h
          rw [then_eq_lt] at h'
          have hy : y ≠ 0 := h₂ y (by simp)
          rcases h' with h' | ⟨h', _⟩
          · show (compare (0:Int) y).then _ = .lt
            rw [h']; rfl
          · exact absurd (compare_eq_iff_eq.mp h').symm hy
  | cons x xs ih =>
      cases m₂ with
      | nil =>
          have h' : (compare x (0:Int)).then (lexPad xs []) = .lt := h
          rw [then_eq_lt] at h'
          have hx : x ≠ 0 := h₁ x (by simp)
          rcases h' with h' | ⟨h', _⟩
          · show (compare x (0:Int)).then _ = .lt
            rw [h']; rfl
          · exact absurd (compare_eq_iff_eq.mp h') hx
      | cons y ys =>
          have h' : (compare x y).then (lexPad xs ys) = .lt := h
          rw [then_eq_lt] at h'
          show (compare x y).then (lexPad (xs ++ 0 :: u) (ys ++ 0 :: w)) = .lt
          rcases h' with h' | ⟨h', htl⟩
          · rw [h']; rfl
          · rw [h']
            have := ih ys htl (fun z hz => h₁ z (by simp [hz])) (fun z hz => h₂ z (by simp [hz]))
            simpa [Ordering.then] using this

theorem swap_eq_lt {x : Ordering} (h : x.swap = .lt) : x = .gt := by
  cases x <;> simp [Ordering.swap] at h ⊢

theorem swap_eq_gt {x : Ordering} (h : x.swap = .gt) : x = .lt := by
  cases x <;> simp [Ordering.swap] at h ⊢

theorem lexPad_append_gt (m₁ m₂ : List Int) (u w : List Int)
    (h : lexPad m₁ m₂ = .gt) (h₁ : ∀ x ∈ m₁, x ≠ 0) (h₂ : ∀ x ∈ m₂, x ≠ 0) :
    lexPad (m₁ ++ 0 :: u) (m₂ ++ 0 :: w) = .gt := by
  have hs := lexPad_swap m₁ m₂
  rw [h] at hs
  have h' : lexPad m₂ m₁ = .lt := swap_eq_gt hs.symm
  have happ := lexPad_append_lt m₂ m₁ w u h' h₂ h₁
  have hs2 := lexPad_swap (m₁ ++ 0 :: u) (m₂ ++ 0 :: w)
  rw [happ] at hs2
  simpa [Ordering.swap] using hs2

/-! ## The digit phase: stripping zeros, lock-step scan, numeric value -/

theorem digitVal_cons (c : Char) (cs : List Char) :
    digitVal (c :: cs) = (c.toNat - 48) * 10 ^ cs.length + digitVal cs := rfl

theorem digitVal_lt_pow (l : List Char) (h : ∀ c ∈ l, c.isDigit = true) :
    digitVal l < 10 ^ l.length := by
  induction l with
  | nil => simp [digitVal]
  | cons c cs ih =>
      rw [digitVal_cons]
      have hd := char_digit_bounds c (h c (by simp))
      have ih' := ih (fun x hx => h x (by simp [hx]))
      calc (c.toNat - 48) * 10 ^ cs.length + digitVal cs
          < (c.toNat - 48) * 10 ^ cs.length + 10 ^ cs.length := by omega
        _ = (c.toNat - 48 + 1) * 10 ^ cs.length := by ring
        _ ≤ 10 * 10 ^ cs.length := Nat.mul_le_mul_right _ (by omega)
        _ = 10 ^ (c :: cs).length := by rw [List.length_cons]; ring

theorem digitVal_ge_pow (c : Char) (cs : List Char) (hc : c.isDigit = true) (h0 : c ≠ '0') :
    10 ^ cs.length ≤ digitVal (c :: cs) := by
  rw [digitVal_cons]
  have hd := char_digit_bounds c hc
  have h48 : c.toNat ≠ 48 := by
    intro h
    exact h0 (char_toNat_inj c '0' (by simpa using h))
  have : 1 ≤ c.toNat - 48 := by omega
  calc 10 ^ cs.length = 1 * 10 ^ cs.length := (one_mul _).symm
    _ ≤ (c.toNat - 48) * 10 ^ cs.length := Nat.mul_le_mul_right _ this
    _ ≤ (c.toNat - 48) * 10 ^ cs.length + digitVal cs := Nat.le_add_right _ _

theorem digitVal_strip (l : List Char) :
    digitVal (l.dropWhile (· = '0')) = digitVal l := by
  induction l with
  | nil => rfl
  | cons c cs ih =>
      by_cases hc : c = '0'
      · subst hc
        rw [List.dropWhile_cons_of_pos (by simp)]
        rw [ih, digitVal_cons]
        simp [show '0'.toNat - 48 = 0 by decide]
      · rw [List.dropWhile_cons_of_neg (by simp [hc])]

/-- The first difference between two digit runs, scanned left to right. -/
def fdiff : List Char → List Char → Int
  | a :: as, b :: bs => if a = b then fdiff as bs else (a.toNat : Int) - b.toNat
  | _, _ => 0

/-- The accumulator discipline of `first_diff`: once set, it keeps its value. -/
def fdAcc (f0 : Int) (x y : List Char) : Int := if f0 = 0 then fdiff x y else f0

theorem fdAcc_cons (f0 : Int) (a b : Char) (as ys : List Char) :
    fdAcc f0 (a :: as) (b :: ys) =
      fdAcc (if f0 = 0 then (a.toNat : Int) - b.toNat else f0) as ys := by
  by_cases h0 : f0 = 0
  · subst h0
    by_cases hab : a = b
    · subst hab
      have hz : (a.toNat : Int) - a.toNat = 0 := by omega
      simp [fdAcc, fdiff, hz]
    · have hne : (a.toNat : Int) - b.toNat ≠ 0 := by
        intro h
        exact hab (char_toNat_inj a b (by omega))
      simp [fdAcc, fdiff, hab, hne]
  · simp [fdAcc, h0]

theorem headIsDigit_append_cons (d : Char) (ds tl : List Char) :
    headIsDigit ((d :: ds) ++ tl) = d.isDigit := rfl

theorem fdAcc_nil_nil (f0 : Int) : fdAcc f0 [] [] = f0 := by
  simp only [fdAcc, fdiff]
  split <;> omega

theorem digitLockstep_spec : ∀ (dx : List Char) (dy rx ry : List Char) (f0 : Int),
    (∀ c ∈ dx, c.isDigit = true) → (∀ c ∈ dy, c.isDigit = true) →
    headIsDigit rx = false → headIsDigit ry = false →
    digitLockstep (dx ++ rx) (dy ++ ry) f0 =
      if dx.length ≤ dy.length
      then (fdAcc f0 dx (dy.take dx.length), rx, dy.drop dx.length ++ ry)
      else (fdAcc f0 (dx.take dy.length) dy, dx.drop dy.length ++ rx, ry) := by
  intro dx
  induction dx with
  | nil =>
      intro dy rx ry f0 hdx hdy hrx hry
      rw [if_pos (by simp)]
      simp only [List.length_nil, List.take_zero, List.drop_zero, List.nil_append]
      rw [fdAcc_nil_nil]
      cases rx with
      | nil => cases dy with
        | nil => cases ry with
          | nil => rfl
          | cons e es => rfl
        | cons d ds => rfl
      | cons c cs =>
          have hc : c.isDigit = false := by simpa [headIsDigit] using hrx
          cases dy with
          | nil => cases ry with
            | nil => rfl
            | cons e es =>
                show digitLockstep (c :: cs) (e :: es) f0 = _
                unfold digitLockstep
                rw [if_neg (by simp [hc])]
                simp
          | cons d ds =>
              show digitLockstep (c :: cs) (d :: (ds ++ ry)) f0 = _
              unfold digitLockstep
              rw [if_neg (by simp [hc])]
              simp
  | cons a as ih =>
      intro dy rx ry f0 hdx hdy hrx hry
      have ha : a.isDigit = true := hdx a (by simp)
      cases dy with
      | nil =>
          rw [if_neg (by simp)]
          simp only [List.length_nil, List.take_zero, List.drop_zero, List.nil_append]
          rw [fdAcc_nil_nil]
          cases ry with
          | nil => rfl
          | cons e es =>
              show digitLockstep (a :: (as ++ rx)) (e :: es) f0 = _
              have he : e.isDigit = false := by simpa [headIsDigit] using hry
              unfold digitLockstep
              rw [if_neg (by simp [he])]
              simp
      | cons b bs =>
          have hb : b.isDigit = true := hdy b (by simp)
          show digitLockstep (a :: (as ++ rx)) (b :: (bs ++ ry)) f0 = _
          unfold digitLockstep
          rw [if_pos (by simp [ha, hb])]
          rw [ih bs rx ry _ (fun x hx => hdx x (by simp [hx])) (fun x hx => hdy x (by simp [hx]))
            hrx hry]
          simp only [List.length_cons, List.take_succ_cons, List.drop_succ_cons,
            Nat.add_le_add_iff_right, fdAcc_cons]

theorem compare_nat_add_left (k a b : Nat) : compare (k + a) (k + b) = compare a b := by
  rcases lt_trichotomy a b with h | h | h
  · rw [compare_lt_iff_lt.mpr h, compare_lt_iff_lt.mpr (by omega)]
  · subst h
    rw [compare_eq_iff_eq.mpr rfl, compare_eq_iff_eq.mpr rfl]
  · rw [compare_gt_iff_gt.mpr h, compare_gt_iff_gt.mpr (by omega)]

theorem compare_int_cast (m n : Nat) : compare (m : Int) (n : Int) = compare m n := by
  rcases lt_trichotomy m n with h | h | h
  · rw [compare_lt_iff_lt.mpr h, compare_lt_iff_lt.mpr (by exact_mod_cast h)]
  · subst h
    rw [compare_eq_iff_eq.mpr rfl, compare_eq_iff_eq.mpr rfl]
  · rw [compare_gt_iff_gt.mpr h, compare_gt_iff_gt.mpr (by exact_mod_cast h)]

theorem fdiff_sign : ∀ (x y : List Char), x.length = y.length →
    (∀ c ∈ x, c.isDigit = true) → (∀ c ∈ y, c.isDigit = true) →
    ordOf (fdiff x y) = compare (digitVal x) (digitVal y) := by
  intro x
  induction x with
  | nil =>
      intro y hlen _ _
      have hy : y = [] := List.length_eq_zero.mp hlen.symm
      subst hy
      show ordOf 0 = compare 0 0
      rw [compare_eq_iff_eq.mpr rfl]
      rfl
  | cons a as ih =>
      intro y hlen hx hy
      cases y with
      | nil => simp at hlen
      | cons b bs =>
          have hlen' : as.length = bs.length := by simpa using hlen
          have ha := char_digit_bounds a (hx a (by simp))
          have hb := char_digit_bounds b (hy b (by simp))
          by_cases hab : a = b
          · subst hab
            have hstep : fdiff (a :: as) (a :: bs) = fdiff as bs := by simp [fdiff]
            rw [hstep, digitVal_cons, digitVal_cons, hlen', compare_nat_add_left]
            exact ih bs hlen' (fun c hc => hx c (by simp [hc])) (fun c hc => hy c (by simp [hc]))
          · have hstep : fdiff (a :: as) (b :: bs) = (a.toNat : Int) - b.toNat := by
              simp [fdiff, hab]
            rw [hstep, ordOf_sub, compare_int_cast, digitVal_cons, digitVal_cons, hlen']
            have hvas : digitVal as < 10 ^ bs.length := by
              rw [← hlen']
              exact digitVal_lt_pow as (fun c hc => hx c (by simp [hc]))
            have hvbs : digitVal bs < 10 ^ bs.length := digitVal_lt_pow bs
              (fun c hc => hy c (by simp [hc]))
            have htoNat : a.toNat ≠ b.toNat := fun h => hab (char_toNat_inj a b h)
            rcases Nat.lt_or_ge a.toNat b.toNat with hlt | hge
            · rw [compare_lt_iff_lt.mpr hlt, compare_lt_iff_lt.mpr ?_]
              calc (a.toNat - 48) * 10 ^ bs.length + digitVal as
                  < (a.toNat - 48) * 10 ^ bs.length + 10 ^ bs.length := by omega
                _ = (a.toNat - 48 + 1) * 10 ^ bs.length := by ring
                _ ≤ (b.toNat - 48) * 10 ^ bs.length := Nat.mul_le_mul_right _ (by omega)
                _ ≤ (b.toNat - 48) * 10 ^ bs.length + digitVal bs := Nat.le_add_right _ _
            · have hgt : b.toNat < a.toNat := by omega
              rw [compare_gt_iff_gt.mpr hgt, compare_gt_iff_gt.mpr ?_]
              calc (b.toNat - 48) * 10 ^ bs.length + digitVal bs
                  < (b.toNat - 48) * 10 ^ bs.length + 10 ^ bs.length := by omega
                _ = (b.toNat - 48 + 1) * 10 ^ bs.length := by ring
                _ ≤ (a.toNat - 48) * 10 ^ bs.length := Nat.mul_le_mul_right _ (by omega)
                _ ≤ (a.toNat - 48) * 10 ^ bs.length + digitVal as := Nat.le_add_right _ _

theorem fdiff_zero_eq : ∀ (x y : List Char), x.length = y.length → fdiff x y = 0 → x = y := by
  intro x
  induction x with
  | nil =>
      intro y hlen _
      exact (List.length_eq_zero.mp hlen.symm).symm
  | cons a as ih =>
      intro y hlen hfd
      cases y with
      | nil => simp at hlen
      | cons b bs =>
          by_cases hab : a = b
          · subst hab
            have : fdiff as bs = 0 := by simpa [fdiff] using hfd
            rw [ih bs (by simpa using hlen) this]
          · exfalso
            have hstep : fdiff (a :: as) (b :: bs) = (a.toNat : Int) - b.toNat := by
              simp [fdiff, hab]
            rw [hstep] at hfd
            exact hab (char_toNat_inj a b (by omega))

theorem dropZeros_append (d rest : List Char) (h : headIsDigit rest = false) :
    (d ++ rest).dropWhile (· = '0') = d.dropWhile (· = '0') ++ rest := by
  induction d with
  | nil =>
      simp only [List.nil_append, List.dropWhile_nil]
      cases rest with
      | nil => rfl
      | cons c cs =>
          have hc : c.isDigit = false := by simpa [headIsDigit] using h
          have : c ≠ '0' := by rintro rfl; exact absurd hc (by decide)
          rw [List.dropWhile_cons_of_neg (by simp [this])]
  | cons a as ih =>
      by_cases ha : a = '0'
      · subst ha
        rw [List.cons_append, List.dropWhile_cons_of_pos (by simp),
          List.dropWhile_cons_of_pos (by simp), ih]
      · rw [List.cons_append, List.dropWhile_cons_of_neg (by simp [ha]),
          List.dropWhile_cons_of_neg (by simp [ha])]
        rfl

theorem headIsDigit_dropWhile_digit (l : List Char) :
    headIsDigit (l.dropWhile Char.isDigit) = false := by
  induction l with
  | nil => rfl
  | cons c cs ih =>
      by_cases hc : c.isDigit = true
      · rw [List.dropWhile_cons_of_pos hc]; exact ih
      · rw [List.dropWhile_cons_of_neg (by simp [hc])]
        simpa [headIsDigit] using hc

theorem head_dropZeros_ne_zero : ∀ (l : List Char) (c : Char) (cs : List Char),
    l.dropWhile (· = '0') = c :: cs → c ≠ '0' := by
  intro l
  induction l with
  | nil => intro c cs h; simp at h
  | cons a as ih =>
      intro c cs h
      by_cases ha : a = '0'
      · subst ha
        rw [List.dropWhile_cons_of_pos (by simp)] at h
        exact ih c cs h
      · rw [List.dropWhile_cons_of_neg (by simp [ha])] at h
        injection h with h1 _
        subst h1
        exact ha

theorem nulFree_sublist {l l' : List Char} (h : List.Sublist l' l) (hl : nulFree l = true) :
    nulFree l' = true := by
  simp only [nulFree, List.all_eq_true, decide_eq_true_eq] at hl ⊢
  exact fun c hc => hl c (h.subset hc)

theorem lexPad_refl (x : List Int) : lexPad x x = .eq := by
  induction x with
  | nil => rfl
  | cons a as ih =>
      show (compare a a).then (lexPad as as) = .eq
      rw [compare_eq_iff_eq.mpr rfl, ih]
      rfl

/-- One token of the key, in uniform shape also for the empty string. -/
def tokenKey (s : List Char) : List Int :=
  (s.takeWhile ndP).map order ++
    0 :: (digitVal ((s.dropWhile ndP).takeWhile Char.isDigit) : Int) ::
    key ((s.dropWhile ndP).dropWhile Char.isDigit)

theorem key_tokenKey_eq (s : List Char) : lexPad (key s) (tokenKey s) = .eq := by
  cases s with
  | nil => decide
  | cons c cs =>
      rw [show tokenKey (c :: cs) = key (c :: cs) from (key_unfold c cs).symm]
      exact lexPad_refl _

theorem lexPad_key_token (v r : List Char) :
    lexPad (key v) (key r) = lexPad (tokenKey v) (tokenKey r) := by
  rw [lexPad_congr_left (key v) (tokenKey v) (key_tokenKey_eq v) (key r),
    lexPad_congr_right (key r) (tokenKey r) (key_tokenKey_eq r) (tokenKey v)]

theorem map_order_ne_zero (v : List Char) (hv : nulFree v = true) :
    ∀ x ∈ (v.takeWhile ndP).map order, x ≠ 0 := by
  intro x hx
  rw [List.mem_map] at hx
  obtain ⟨c, hc, rfl⟩ := hx
  have h1 : ndP c = true := List.mem_takeWhile_imp hc
  have h2 : c ∈ v := (List.takeWhile_sublist _).subset hc
  have h3 : c.toNat ≠ 0 := by
    simp only [nulFree, List.all_eq_true, decide_eq_true_eq] at hv
    exact hv c h2
  exact order_ne_zero (by simpa [ndP] using h1) h3

/-! ## Equivalence of `verrevcmp` with the key comparison -/

theorem vrLoop_succ_nil (f : Nat) : vrLoop (f+1) [] [] = 0 := by
  simp [vrLoop]

theorem vrLoop_succ_inl (f : Nat) (v r : List Char) (x : Int)
    (hnil : ¬(v = [] ∧ r = [])) (h : ndLoop v r = .inl x) : vrLoop (f+1) v r = x := by
  simp [vrLoop, hnil, h]

theorem vrLoop_succ_inr (f : Nat) (v r v₁ r₁ : List Char) (fd : Int) (v'' r'' : List Char)
    (hnil : ¬(v = [] ∧ r = [])) (h : ndLoop v r = .inr (v₁, r₁))
    (hls : digitLockstep (v₁.dropWhile (· = '0')) (r₁.dropWhile (· = '0')) 0 = (fd, v'', r'')) :
    vrLoop (f+1) v r =
      (if headIsDigit v'' then 1
       else if headIsDigit r'' then -1
       else if fd ≠ 0 then fd
       else vrLoop f v'' r'') := by
  simp [vrLoop, hnil, h, hls]

theorem fdAcc_zero (x y : List Char) : fdAcc 0 x y = fdiff x y := by
  simp [fdAcc]

theorem rest_length_le (v : List Char) :
    ((v.dropWhile ndP).dropWhile Char.isDigit).length ≤ v.length :=
  le_trans ((List.dropWhile_sublist _).length_le)
    ((List.dropWhile_sublist _).length_le)

theorem ordOf_eq_iff (x : Int) : ordOf x = .eq ↔ x = 0 := by
  unfold ordOf
  constructor
  · intro h
    by_cases h1 : x < 0
    · simp [h1] at h
    · by_cases h2 : x = 0
      · exact h2
      · simp [h1, h2] at h
  · intro h
    simp [h]

theorem tokenKey_reduce (M : List Int) (d1 d2 : Nat) (K1 K2 : List Int) :
    lexPad (M ++ 0 :: (d1:Int) :: K1) (M ++ 0 :: (d2:Int) :: K2) =
      (compare d1 d2).then (lexPad K1 K2) := by
  rw [show M ++ (0:Int) :: (d1:Int) :: K1 = (M ++ [0]) ++ (d1:Int) :: K1 by simp,
      show M ++ (0:Int) :: (d2:Int) :: K2 = (M ++ [0]) ++ (d2:Int) :: K2 by simp,
      lexPad_append_eq, lexPad_cons_cons, compare_int_cast]

theorem vrLoop_key : ∀ (f : Nat) (v r : List Char), nulFree v = true → nulFree r = true →
    v.length + r.length < f → ordOf (vrLoop f v r) = lexPad (key v) (key r) := by
  intro f
  induction f with
  | zero => intro v r _ _ h; omega
  | succ f ih =>
      intro v r hv hr hlen
      by_cases hnil : v = [] ∧ r = []
      · obtain ⟨rfl, rfl⟩ := hnil
        rw [vrLoop_succ_nil]
        decide
      · obtain ⟨ndl, ndr⟩ := ndLoop_spec v r hv hr
        have htok := lexPad_key_token v r
        cases hnd : ndLoop v r with
        | inl x =>
            obtain ⟨hx1, hx2⟩ := ndl x hnd
            rw [vrLoop_succ_inl f v r x hnil hnd, htok]
            unfold tokenKey
            have hMv := map_order_ne_zero v hv
            have hMr := map_order_ne_zero r hr
            cases ho : ordOf x with
            | eq => exact absurd ((ordOf_eq_iff x).mp ho) hx2
            | lt =>
                rw [ho] at hx1
                rw [lexPad_append_lt _ _ _ _ hx1.symm hMv hMr]
            | gt =>
                rw [ho] at hx1
                rw [lexPad_append_gt _ _ _ _ hx1.symm hMv hMr]
        | inr vr =>
            obtain ⟨v₁, r₁⟩ := vr
            obtain ⟨hM, hv₁, hr₁⟩ := ndr v₁ r₁ hnd
            have hdec₁ : v₁ = v₁.takeWhile Char.isDigit ++ v₁.dropWhile Char.isDigit :=
              (List.takeWhile_append_dropWhile _ _).symm
            have hdec₂ : r₁ = r₁.takeWhile Char.isDigit ++ r₁.dropWhile Char.isDigit :=
              (List.takeWhile_append_dropWhile _ _).symm
            have hD1dig : ∀ c ∈ v₁.takeWhile Char.isDigit, c.isDigit = true :=
              fun c hc => List.mem_takeWhile_imp hc
            have hD2dig : ∀ c ∈ r₁.takeWhile Char.isDigit, c.isDigit = true :=
              fun c hc => List.mem_takeWhile_imp hc
            have hR1 : headIsDigit (v₁.dropWhile Char.isDigit) = false :=
              headIsDigit_dropWhile_digit v₁
            have hR2 : headIsDigit (r₁.dropWhile Char.isDigit) = false :=
              headIsDigit_dropWhile_digit r₁
            have hstrip₁ : v₁.dropWhile (· = '0') =
                (v₁.takeWhile Char.isDigit).dropWhile (· = '0') ++ v₁.dropWhile Char.isDigit := by
              conv_lhs => rw [hdec₁]
              exact dropZeros_append _ _ hR1
            have hstrip₂ : r₁.dropWhile (· = '0') =
                (r₁.takeWhile Char.isDigit).dropWhile (· = '0') ++ r₁.dropWhile Char.isDigit := by
              conv_lhs => rw [hdec₂]
              exact dropZeros_append _ _ hR2
            have hD1dig' : ∀ c ∈ (v₁.takeWhile Char.isDigit).dropWhile (· = '0'),
                c.isDigit = true :=
              fun c hc => hD1dig c ((List.dropWhile_sublist _).subset hc)
            have hD2dig' : ∀ c ∈ (r₁.takeWhile Char.isDigit).dropWhile (· = '0'),
                c.isDigit = true :=
              fun c hc => hD2dig c ((List.dropWhile_sublist _).subset hc)
            have hls := digitLockstep_spec
              ((v₁.takeWhile Char.isDigit).dropWhile (· = '0'))
              ((r₁.takeWhile Char.isDigit).dropWhile (· = '0'))
              (v₁.dropWhile Char.isDigit) (r₁.dropWhile Char.isDigit) 0
              hD1dig' hD2dig' hR1 hR2
            have hval₁ : digitVal ((v₁.takeWhile Char.isDigit).dropWhile (· = '0')) =
                digitVal (v₁.takeWhile Char.isDigit) := digitVal_strip _
            have hval₂ : digitVal ((r₁.takeWhile Char.isDigit).dropWhile (· = '0')) =
                digitVal (r₁.takeWhile Char.isDigit) := digitVal_strip _
            have htok2 : lexPad (key v) (key r) =
                (compare (digitVal (v₁.takeWhile Char.isDigit))
                  (digitVal (r₁.takeWhile Char.isDigit))).then
                  (lexPad (key (v₁.dropWhile Char.isDigit))
                          (key (r₁.dropWhile Char.isDigit))) := by
              rw [htok]
              unfold tokenKey
              rw [← hv₁, ← hr₁, hM, tokenKey_reduce]
            rcases Nat.lt_trichotomy
                ((v₁.takeWhile Char.isDigit).dropWhile (· = '0')).length
                ((r₁.takeWhile Char.isDigit).dropWhile (· = '0')).length with hlt | heq | hgt
            · -- left digit run strictly shorter: verrevcmp returns -1
              rw [if_pos (le_of_lt hlt)] at hls
              have hls2 : digitLockstep (v₁.dropWhile (· = '0')) (r₁.dropWhile (· = '0')) 0 =
                  (fdAcc 0 ((v₁.takeWhile Char.isDigit).dropWhile (· = '0'))
                    (((r₁.takeWhile Char.isDigit).dropWhile (· = '0')).take
                      ((v₁.takeWhile Char.isDigit).dropWhile (· = '0')).length),
                   v₁.dropWhile Char.isDigit,
                   ((r₁.takeWhile Char.isDigit).dropWhile (· = '0')).drop
                      ((v₁.takeWhile Char.isDigit).dropWhile (· = '0')).length ++
                     r₁.dropWhile Char.isDigit) := by
                rw [hstrip₁, hstrip₂]
                exact hls
              rw [vrLoop_succ_inr f v r v₁ r₁ _ _ _ hnil hnd hls2]
              obtain ⟨c, cc, hcc⟩ : ∃ c cc,
                  ((r₁.takeWhile Char.isDigit).dropWhile (· = '0')).drop
                    ((v₁.takeWhile Char.isDigit).dropWhile (· = '0')).length = c :: cc := by
                cases hd : ((r₁.takeWhile Char.isDigit).dropWhile (· = '0')).drop
                    ((v₁.takeWhile Char.isDigit).dropWhile (· = '0')).length with
                | nil =>
                    exfalso
                    have := congrArg List.length hd
                    simp [List.length_drop] at this
                    omega
                | cons c cc => exact ⟨c, cc, rfl⟩
              have hcond : headIsDigit
                  (((r₁.takeWhile Char.isDigit).dropWhile (· = '0')).drop
                    ((v₁.takeWhile Char.isDigit).dropWhile (· = '0')).length ++
                    r₁.dropWhile Char.isDigit) = true := by
                rw [hcc, headIsDigit_append_cons]
                exact hD2dig' c ((List.drop_sublist _ _).subset (hcc ▸ List.mem_cons_self c cc))
              rw [if_neg (by simp [hR1]), if_pos hcond]
              -- the right value is strictly larger
              obtain ⟨c2, cs2, hL2⟩ : ∃ c2 cs2,
                  (r₁.takeWhile Char.isDigit).dropWhile (· = '0') = c2 :: cs2 := by
                cases hL : (r₁.takeWhile Char.isDigit).dropWhile (· = '0') with
                | nil => exfalso; rw [hL] at hlt; simp at hlt
                | cons c2 cs2 => exact ⟨c2, cs2, rfl⟩
              have hc2 : c2 ≠ '0' := head_dropZeros_ne_zero _ c2 cs2 hL2
              have hc2d : c2.isDigit = true := hD2dig' c2 (hL2 ▸ List.mem_cons_self c2 cs2)
              have hge : 10 ^ cs2.length ≤
                  digitVal ((r₁.takeWhile Char.isDigit).dropWhile (· = '0')) := by
                rw [hL2]
                exact digitVal_ge_pow c2 cs2 hc2d hc2
              have hlt1 : digitVal ((v₁.takeWhile Char.isDigit).dropWhile (· = '0')) <
                  10 ^ ((v₁.takeWhile Char.isDigit).dropWhile (· = '0')).length :=
                digitVal_lt_pow _ hD1dig'
              have hlenle : ((v₁.takeWhile Char.isDigit).dropWhile (· = '0')).length ≤
                  cs2.length := by
                have := congrArg List.length hL2
                simp at this
                omega
              have hpow : (10:Nat) ^ ((v₁.takeWhile Char.isDigit).dropWhile (· = '0')).length ≤
                  10 ^ cs2.length := Nat.pow_le_pow_right (by norm_num) hlenle
              have hdv : digitVal (v₁.takeWhile Char.isDigit) <
                  digitVal (r₁.takeWhile Char.isDigit) := by
                rw [← hval₁, ← hval₂]
                omega
              rw [htok2, compare_lt_iff_lt.mpr hdv]
              have hres : ordOf (-1) = Ordering.lt := by decide
              rw [hres]
              rfl
            · -- equal lengths after stripping
              rw [if_pos (le_of_eq heq)] at hls
              rw [heq, List.take_length, List.drop_length, List.nil_append] at hls
              have hls2 : digitLockstep (v₁.dropWhile (· = '0')) (r₁.dropWhile (· = '0')) 0 =
                  (fdAcc 0 ((v₁.takeWhile Char.isDigit).dropWhile (· = '0'))
                    ((r₁.takeWhile Char.isDigit).dropWhile (· = '0')),
                   v₁.dropWhile Char.isDigit, r₁.dropWhile Char.isDigit) := by
                rw [hstrip₁, hstrip₂]
                exact hls
              rw [vrLoop_succ_inr f v r v₁ r₁ _ _ _ hnil hnd hls2]
              rw [if_neg (by simp [hR1]), if_neg (by simp [hR2]), fdAcc_zero]
              by_cases hfd : fdiff ((v₁.takeWhile Char.isDigit).dropWhile (· = '0'))
                  ((r₁.takeWhile Char.isDigit).dropWhile (· = '0')) = 0
              · -- identical digit runs: recurse
                rw [if_neg (by simp [hfd])]
                have hLeq := fdiff_zero_eq _ _ heq hfd
                have hdveq : digitVal (v₁.takeWhile Char.isDigit) =
                    digitVal (r₁.takeWhile Char.isDigit) := by
                  rw [← hval₁, ← hval₂, hLeq]
                rw [htok2, hdveq, compare_eq_iff_eq.mpr rfl]
                have hnf1 : nulFree (v₁.dropWhile Char.isDigit) = true := by
                  apply nulFree_sublist (List.dropWhile_sublist _)
                  rw [hv₁]
                  exact nulFree_sublist (List.dropWhile_sublist _) hv
                have hnf2 : nulFree (r₁.dropWhile Char.isDigit) = true := by
                  apply nulFree_sublist (List.dropWhile_sublist _)
                  rw [hr₁]
                  exact nulFree_sublist (List.dropWhile_sublist _) hr
                have hrec : (v₁.dropWhile Char.isDigit).length +
                    (r₁.dropWhile Char.isDigit).length < f := by
                  rw [hv₁, hr₁]
                  cases v with
                  | nil =>
                      cases r with
                      | nil => exact absurd ⟨rfl, rfl⟩ hnil
                      | cons c cs =>
                          have h1 := key_rest_length_lt c cs
                          simp only [List.dropWhile_nil, List.length_nil] at *
                          simp only [List.length_cons] at hlen h1
                          omega
                  | cons c cs =>
                      have h1 := key_rest_length_lt c cs
                      have h2 := rest_length_le r
                      simp only [List.length_cons] at hlen h1
                      omega
                have := ih (v₁.dropWhile Char.isDigit) (r₁.dropWhile Char.isDigit)
                  hnf1 hnf2 hrec
                simpa [Ordering.then] using this
              · -- first difference decides
                rw [if_pos hfd]
                have hsign := fdiff_sign _ _ heq hD1dig' hD2dig'
                have hne : compare (digitVal (v₁.takeWhile Char.isDigit))
                    (digitVal (r₁.takeWhile Char.isDigit)) ≠ .eq := by
                  rw [← hval₁, ← hval₂, ← hsign]
                  intro hcon
                  exact hfd ((ordOf_eq_iff _).mp hcon)
                rw [htok2, then_of_ne_eq _ hne, ← hval₁, ← hval₂]
                exact hsign
            · -- right digit run strictly shorter: verrevcmp returns 1
              rw [if_neg (by omega)] at hls
              have hls2 : digitLockstep (v₁.dropWhile (· = '0')) (r₁.dropWhile (· = '0')) 0 =
                  (fdAcc 0 (((v₁.takeWhile Char.isDigit).dropWhile (· = '0')).take
                      ((r₁.takeWhile Char.isDigit).dropWhile (· = '0')).length)
                    ((r₁.takeWhile Char.isDigit).dropWhile (· = '0')),
                   ((v₁.takeWhile Char.isDigit).dropWhile (· = '0')).drop
                      ((r₁.takeWhile Char.isDigit).dropWhile (· = '0')).length ++
                     v₁.dropWhile Char.isDigit,
                   r₁.dropWhile Char.isDigit) := by
                rw [hstrip₁, hstrip₂]
                exact hls
              rw [vrLoop_succ_inr f v r v₁ r₁ _ _ _ hnil hnd hls2]
              obtain ⟨c, cc, hcc⟩ : ∃ c cc,
                  ((v₁.takeWhile Char.isDigit).dropWhile (· = '0')).drop
                    ((r₁.takeWhile Char.isDigit).dropWhile (· = '0')).length = c :: cc := by
                cases hd : ((v₁.takeWhile Char.isDigit).dropWhile (· = '0')).drop
                    ((r₁.takeWhile Char.isDigit).dropWhile (· = '0')).length with
                | nil =>
                    exfalso
                    have := congrArg List.length hd
                    simp [List.length_drop] at this
                    omega
                | cons c cc => exact ⟨c, cc, rfl⟩
              have hcond : headIsDigit
                  (((v₁.takeWhile Char.isDigit).dropWhile (· = '0')).drop
                    ((r₁.takeWhile Char.isDigit).dropWhile (· = '0')).length ++
                    v₁.dropWhile Char.isDigit) = true := by
                rw [hcc, headIsDigit_append_cons]
                exact hD1dig' c ((List.drop_sublist _ _).subset (hcc ▸ List.mem_cons_self c cc))
              rw [if_pos hcond]
              obtain ⟨c2, cs2, hL1⟩ : ∃ c2 cs2,
                  (v₁.takeWhile Char.isDigit).dropWhile (· = '0') = c2 :: cs2 := by
                cases hL : (v₁.takeWhile Char.isDigit).dropWhile (· = '0') with
                | nil => exfalso; rw [hL] at hgt; simp at hgt
                | cons c2 cs2 => exact ⟨c2, cs2, rfl⟩
              have hc2 : c2 ≠ '0' := head_dropZeros_ne_zero _ c2 cs2 hL1
              have hc2d : c2.isDigit = true := hD1dig' c2 (hL1 ▸ List.mem_cons_self c2 cs2)
              have hge : 10 ^ cs2.length ≤
                  digitVal ((v₁.takeWhile Char.isDigit).dropWhile (· = '0')) := by
                rw [hL1]
                exact digitVal_ge_pow c2 cs2 hc2d hc2
              have hlt1 : digitVal ((r₁.takeWhile Char.isDigit).dropWhile (· = '0')) <
                  10 ^ ((r₁.takeWhile Char.isDigit).dropWhile (· = '0')).length :=
                digitVal_lt_pow _ hD2dig'
              have hlenle : ((r₁.takeWhile Char.isDigit).dropWhile (· = '0')).length ≤
                  cs2.length := by
                have := congrArg List.length hL1
                simp at this
                omega
              have hpow : (10:Nat) ^ ((r₁.takeWhile Char.isDigit).dropWhile (· = '0')).length ≤
                  10 ^ cs2.length := Nat.pow_le_pow_right (by norm_num) hlenle
              have hdv : digitVal (r₁.takeWhile Char.isDigit) <
                  digitVal (v₁.takeWhile Char.isDigit) := by
                rw [← hval₁, ← hval₂]
                omega
              rw [htok2, compare_gt_iff_gt.mpr hdv]
              have hres : ordOf 1 = Ordering.gt := by decide
              rw [hres]
              rfl

theorem verrevcmp_key (v r : List Char) (hv : nulFree v = true) (hr : nulFree r = true) :
    ordOf (verrevcmp v r) = lexPad (key v) (key r) :=
  vrLoop_key (v.length + r.length + 1) v r hv hr (Nat.lt_succ_self _)

theorem ordOf_lt_iff (x : Int) : ordOf x = .lt ↔ x < 0 := by
  unfold ordOf
  by_cases h1 : x < 0
  · simp [h1]
  · by_cases h2 : x = 0 <;> simp [h1, h2]

theorem ordOf_gt_iff (x : Int) : ordOf x = .gt ↔ 0 < x := by
  unfold ordOf
  by_cases h1 : x < 0
  · simp [h1]; omega
  · by_cases h2 : x = 0
    · simp [h1, h2]
    · simp [h1, h2]
      omega

/-- `pkg_compare_versions` compares, in sign, as the lexicographic chain of
epoch, upstream key and revision key. -/
theorem pkg_compare_key (a b : Version) (ha : validVersion a = true)
    (hb : validVersion b = true) :
    ordOf (pkg_compare_versions a b) =
      (compare a.epoch b.epoch).then
        ((lexPad (key a.version) (key b.version)).then
          (lexPad (key a.revision) (key b.revision))) := by
  obtain ⟨hav, har⟩ : nulFree a.version = true ∧ nulFree a.revision = true := by
    simpa [validVersion] using ha
  obtain ⟨hbv, hbr⟩ : nulFree b.version = true ∧ nulFree b.revision = true := by
    simpa [validVersion] using hb
  unfold pkg_compare_versions
  rcases Nat.lt_trichotomy a.epoch b.epoch with he | he | he
  · rw [if_neg (by omega), if_pos he, compare_lt_iff_lt.mpr he]
    rw [show ordOf (-1) = Ordering.lt by decide]
    rfl
  · rw [if_neg (by omega), if_neg (by omega), he, compare_eq_iff_eq.mpr rfl]
    show ordOf _ = ((lexPad (key a.version) (key b.version)).then _)
    by_cases hvz : verrevcmp a.version b.version = 0
    · rw [if_neg (by simp [hvz])]
      have h1 := verrevcmp_key a.version b.version hav hbv
      rw [hvz] at h1
      rw [← h1]
      have h0 : ordOf 0 = Ordering.eq := by decide
      rw [h0]
      exact (verrevcmp_key a.revision b.revision har hbr)
    · rw [if_pos (by simp [hvz])]
      have h1 := verrevcmp_key a.version b.version hav hbv
      have hne : lexPad (key a.version) (key b.version) ≠ .eq := by
        rw [← h1]
        intro hcon
        exact hvz ((ordOf_eq_iff _).mp hcon)
      rw [then_of_ne_eq _ hne]
      exact h1
  · rw [if_pos he, compare_gt_iff_gt.mpr he]
    rw [show ordOf 1 = Ordering.gt by decide]
    rfl

theorem then_swap (x y : Ordering) : (x.then y).swap = x.swap.then y.swap := by
  cases x <;> rfl

theorem compare_nat_swap (m n : Nat) : compare m n = (compare n m).swap :=
  Eq.symm (Batteries.OrientedCmp.symm n m)

/-! ## Reflexivity of `verrevcmp` -/

theorem ndLoop_refl : ∀ (v : List Char), ∃ w, ndLoop v v = .inr (w, w) := by
  intro v
  induction v with
  | nil => exact ⟨[], by simp [ndLoop, ndLoopNil]⟩
  | cons a as ih =>
      by_cases ha : a.isDigit = true
      · exact ⟨a :: as, by simp [ndLoop, ha]⟩
      · obtain ⟨w, hw⟩ := ih
        exact ⟨w, by simp [ndLoop, ha, hw]⟩

theorem digitLockstep_cons_pos (a b : Char) (as bs : List Char) (fd : Int)
    (ha : a.isDigit = true) (hb : b.isDigit = true) :
    digitLockstep (a :: as) (b :: bs) fd =
      digitLockstep as bs (if fd = 0 then (a.toNat : Int) - b.toNat else fd) := by
  have h : digitLockstep (a :: as) (b :: bs) fd =
      if (a.isDigit && b.isDigit) = true then
        digitLockstep as bs (if fd = 0 then (a.toNat : Int) - (b.toNat : Int) else fd)
      else (fd, a :: as, b :: bs) := rfl
  rw [h, if_pos (by simp [ha, hb])]

theorem digitLockstep_cons_neg (a b : Char) (as bs : List Char) (fd : Int)
    (h : ¬((a.isDigit && b.isDigit) = true)) :
    digitLockstep (a :: as) (b :: bs) fd = (fd, a :: as, b :: bs) := by
  have heq : digitLockstep (a :: as) (b :: bs) fd =
      if (a.isDigit && b.isDigit) = true then
        digitLockstep as bs (if fd = 0 then (a.toNat : Int) - (b.toNat : Int) else fd)
      else (fd, a :: as, b :: bs) := rfl
  rw [heq, if_neg h]

theorem digitLockstep_refl : ∀ (x : List Char),
    ∃ y, digitLockstep x x 0 = (0, y, y) ∧ headIsDigit y = false := by
  intro x
  induction x with
  | nil => exact ⟨[], rfl, rfl⟩
  | cons a as ih =>
      by_cases ha : a.isDigit = true
      · obtain ⟨y, hy, hhd⟩ := ih
        refine ⟨y, ?_, hhd⟩
        rw [digitLockstep_cons_pos a a as as 0 ha ha, if_pos rfl,
          show (a.toNat : Int) - a.toNat = 0 by omega]
        exact hy
      · refine ⟨a :: as, ?_, by simp [headIsDigit, ha]⟩
        exact digitLockstep_cons_neg a a as as 0 (by simp [ha])

theorem vrLoop_refl : ∀ (f : Nat) (v : List Char), vrLoop f v v = 0 := by
  intro f
  induction f with
  | zero => intro v; rfl
  | succ f ih =>
      intro v
      by_cases hv : v = []
      · subst hv
        exact vrLoop_succ_nil f
      · obtain ⟨w, hw⟩ := ndLoop_refl v
        obtain ⟨y, hy, hhd⟩ := digitLockstep_refl (w.dropWhile (· = '0'))
        rw [vrLoop_succ_inr f v v w w 0 y y (by simp [hv]) hw hy]
        rw [if_neg (by simp [hhd]), if_neg (by simp [hhd]), if_neg (by simp)]
        exact ih y

theorem verrevcmp_refl (v : List Char) : verrevcmp v v = 0 := vrLoop_refl _ v

/-! ## Claim C1: constraint satisfaction -/

/-- C1 (counterexample): with a strict `<<` (EARLIER) constraint and versions
comparing Equal, `version_constraints_satisfied` returns `true` — the
`comparison == 0` branch of the source fires for every constraint — refuting
the claim that strict `<<` requires Less and that Equal does not satisfy it. -/
theorem claim_C1_counterexample :
    pkg_compare_versions ⟨0, ['1','.','0'], []⟩ (parse_version ['1','.','0']) = 0 ∧
    version_constraints_satisfied ⟨"dep", .EARLIER, some ['1','.','0']⟩
      ⟨0, ['1','.','0'], []⟩ = true := by
  constructor
  · decide
  · decide

/-- C1 (amended): `version_constraints_satisfied` holds exactly as follows
over `comparison = compare(pkg.version, atom.version)`: a `None` constraint is
always satisfied; `=` requires Equal; strict `<<` accepts Less **or Equal**;
strict `>>` accepts Greater **or Equal**; `<=` accepts Less or Equal; `>=`
accepts Greater or Equal. -/
theorem claim_C1_amended (d : DepAtom) (p : Version) :
    version_constraints_satisfied d p = true ↔
      (match d.constraint with
       | .NONE => True
       | .EQUAL => pkg_compare_versions p (parse_version (d.version.getD [])) = 0
       | .EARLIER => pkg_compare_versions p (parse_version (d.version.getD [])) ≤ 0
       | .EARLIER_EQUAL => pkg_compare_versions p (parse_version (d.version.getD [])) ≤ 0
       | .LATER => 0 ≤ pkg_compare_versions p (parse_version (d.version.getD []))
       | .LATER_EQUAL => 0 ≤ pkg_compare_versions p (parse_version (d.version.getD []))) := by
  unfold version_constraints_satisfied
  cases d.constraint <;> simp <;> omega

/-! ## Claim C2: absent revision versus revision "0" -/

/-- C2 (counterexample): the versions `1.0` (absent revision) and `1.0-0`
compare Equal (result 0), not Less: the claim that the null revision is
strictly less than `"0"` fails on the code. -/
theorem claim_C2_counterexample :
    pkg_compare_versions ⟨0, ['1','.','0'], []⟩ ⟨0, ['1','.','0'], ['0']⟩ = 0 ∧
    ¬(pkg_compare_versions ⟨0, ['1','.','0'], []⟩ ⟨0, ['1','.','0'], ['0']⟩ < 0) := by
  constructor
  · decide
  · decide

/-- C2 (amended): for every epoch and upstream string, a version with the
absent (empty) revision compares Equal (result 0) to the same version with
revision `"0"`, in both directions: stripping leading zeros makes the digit
runs `""` and `"0"` both empty, so `verrevcmp "" "0" = 0`. -/
theorem claim_C2_amended (e : Nat) (up : List Char) :
    pkg_compare_versions ⟨e, up, []⟩ ⟨e, up, ['0']⟩ = 0 ∧
    pkg_compare_versions ⟨e, up, ['0']⟩ ⟨e, up, []⟩ = 0 := by
  have key : ∀ (x y : List Char), verrevcmp x y = 0 →
      pkg_compare_versions ⟨e, up, x⟩ ⟨e, up, y⟩ = 0 := by
    intro x y hxy
    simp only [pkg_compare_versions]
    rw [verrevcmp_refl up, if_neg (by omega), if_neg (by omega), if_neg (by simp)]
    exact hxy
  exact ⟨key [] ['0'] (by decide), key ['0'] [] (by decide)⟩

/-! ## Claim C5: the version comparison is a total order -/

/-- C5: `pkg_compare_versions` is a total order on versions: every pair
compares Less (negative), Equal (zero) or Greater (positive); it is
antisymmetric (`compare(a,b) = Less` iff `compare(b,a) = Greater`); and it is
transitive (Less composed with Less gives Less).  Antisymmetry and
transitivity are stated for valid C strings (no embedded NUL). -/
theorem claim_C5_total_order :
    (∀ a b : Version, pkg_compare_versions a b < 0 ∨ pkg_compare_versions a b = 0 ∨
        0 < pkg_compare_versions a b) ∧
    (∀ a b : Version, validVersion a = true → validVersion b = true →
        (pkg_compare_versions a b < 0 ↔ 0 < pkg_compare_versions b a)) ∧
    (∀ a b c : Version, validVersion a = true → validVersion b = true →
        validVersion c = true →
        pkg_compare_versions a b < 0 → pkg_compare_versions b c < 0 →
        pkg_compare_versions a c < 0) := by
  refine ⟨fun a b => by omega, fun a b ha hb => ?_, fun a b c ha hb hc h1 h2 => ?_⟩
  · -- antisymmetry via the key characterization and swapping
    have k1 := pkg_compare_key a b ha hb
    have k2 := pkg_compare_key b a hb ha
    have hswap : ordOf (pkg_compare_versions a b) =
        (ordOf (pkg_compare_versions b a)).swap := by
      rw [k1, k2, then_swap, then_swap, ← lexPad_swap, ← lexPad_swap, ← compare_nat_swap]
    constructor
    · intro h
      have h1 : ordOf (pkg_compare_versions a b) = .lt := (ordOf_lt_iff _).mpr h
      rw [h1] at hswap
      exact (ordOf_gt_iff _).mp (swap_eq_lt hswap.symm)
    · intro h
      have h1 : ordOf (pkg_compare_versions b a) = .gt := (ordOf_gt_iff _).mpr h
      rw [h1] at hswap
      exact (ordOf_lt_iff _).mp hswap
  · -- transitivity via the key characterization
    have k1 := pkg_compare_key a b ha hb
    have k2 := pkg_compare_key b c hb hc
    have k3 := pkg_compare_key a c ha hc
    rw [← ordOf_lt_iff] at h1 h2 ⊢
    rw [k1] at h1
    rw [k2] at h2
    rw [k3]
    rw [then_eq_lt] at h1 h2 ⊢
    rcases h1 with h1 | ⟨h1e, h1i⟩
    · rcases h2 with h2 | ⟨h2e, h2i⟩
      · exact Or.inl (Batteries.TransCmp.lt_trans h1 h2)
      · left
        rwa [compare_eq_iff_eq.mp h2e] at h1
    · rcases h2 with h2 | ⟨h2e, h2i⟩
      · left
        rwa [← compare_eq_iff_eq.mp h1e] at h2
      · right
        refine ⟨by rw [compare_eq_iff_eq.mp h1e, compare_eq_iff_eq.mp h2e,
          compare_eq_iff_eq.mpr rfl], ?_⟩
        rw [then_eq_lt] at h1i h2i ⊢
        rcases h1i with hv1 | ⟨hv1, hr1⟩
        · rcases h2i with hv2 | ⟨hv2, hr2⟩
          · exact Or.inl (lexPad_trans_lt _ _ _ hv1 hv2)
          · left
            rw [← lexPad_congr_right _ _ hv2]
            exact hv1
        · rcases h2i with hv2 | ⟨hv2, hr2⟩
          · left
            rw [lexPad_congr_left _ _ hv1]
            exact hv2
          · right
            refine ⟨?_, lexPad_trans_lt _ _ _ hr1 hr2⟩
            rw [lexPad_congr_left _ _ hv1]
            exact hv2

/-- Witness for C5 at concrete versions `1.0 < 1.1 < 2.0`. -/
theorem claim_C5_total_order_witness :
    (pkg_compare_versions ⟨0, ['1','.','0'], []⟩ ⟨0, ['1','.','1'], []⟩ < 0 ∨
      pkg_compare_versions ⟨0, ['1','.','0'], []⟩ ⟨0, ['1','.','1'], []⟩ = 0 ∨
      0 < pkg_compare_versions ⟨0, ['1','.','0'], []⟩ ⟨0, ['1','.','1'], []⟩) ∧
    (pkg_compare_versions ⟨0, ['1','.','0'], []⟩ ⟨0, ['1','.','1'], []⟩ < 0 ↔
      0 < pkg_compare_versions ⟨0, ['1','.','1'], []⟩ ⟨0, ['1','.','0'], []⟩) ∧
    pkg_compare_versions ⟨0, ['1','.','0'], []⟩ ⟨0, ['2','.','0'], []⟩ < 0 :=
  ⟨claim_C5_total_order.1 _ _,
   claim_C5_total_order.2.1 ⟨0, ['1','.','0'], []⟩ ⟨0, ['1','.','1'], []⟩
     (by decide) (by decide),
   claim_C5_total_order.2.2 ⟨0, ['1','.','0'], []⟩ ⟨0, ['1','.','1'], []⟩
     ⟨0, ['2','.','0'], []⟩ (by decide) (by decide) (by decide)
     (by decide) (by decide)⟩

/-! ## Package data model (`pkg.h` enums as used by `pkg_depends.c`)

Compound-dependency arrays in the C code are NULL/`UNSPEC`-terminated; the
model uses plain lists holding only real compounds. -/

/-- `enum depend_type` (`UNSPEC` is the array terminator). -/
inductive DepType
  | UNSPEC | PREDEPEND | DEPEND | CONFLICTS | GREEDY_DEPEND | RECOMMEND | SUGGEST
deriving DecidableEq, Repr

/-- `pkg_state_want_t`. -/
inductive PkgStateWant
  | SW_UNKNOWN | SW_INSTALL | SW_DEINSTALL | SW_PURGE
deriving DecidableEq, Repr

/-- `pkg_state_status_t`. -/
inductive PkgStateStatus
  | SS_NOT_INSTALLED | SS_UNPACKED | SS_HALF_CONFIGURED | SS_INSTALLED
  | SS_HALF_INSTALLED | SS_CONFIG_FILES | SS_POST_INST_FAILED | SS_REMOVAL_FAILED
deriving DecidableEq, Repr

/-- `compound_depend_t`: an OR-group of atoms with a kind. -/
structure CompoundDep where
  type : DepType
  possibilities : List DepAtom
deriving DecidableEq, Repr

/-- A concrete package (`pkg_t`), with the fields the resolver and the
conflict check read.  `arch_listed` stands for the architecture appearing in
the configured architecture-priority list. -/
structure Pkg where
  name : String
  version : Version
  architecture : String
  arch_priority : Int
  arch_listed : Bool
  state_want : PkgStateWant
  state_status : PkgStateStatus
  depends : List CompoundDep
  conflicts : List CompoundDep
  provides : List String
  replaces : List String
deriving DecidableEq, Repr

/-- The package hash table: all concrete packages.  An abstract package is
identified by its name; its `pkgs` vector is the concretes of that name and
its `provided_by` vector is derived from the `Provides` lists. -/
structure PkgHash where
  pkgs : List Pkg
deriving DecidableEq, Repr

/-- `abstract_pkg->pkgs`: the concrete packages carrying a name. -/
def pkgsOfName (db : PkgHash) (n : String) : List Pkg :=
  db.pkgs.filter (fun q => q.name = n)

/-- `abstract_pkg->provided_by`: the abstract package itself plus every
abstract whose concrete packages list the name in `Provides`. -/
def provided_by (db : PkgHash) (n : String) : List String :=
  (n :: (db.pkgs.filter (fun q => q.provides.contains n)).map (fun q => q.name)).dedup

/-- `pkg_installed_and_constraint_satisfied` of `pkg_depends.c`. -/
def pkg_installed_and_constraint_satisfied (d : DepAtom) (p : Pkg) : Bool :=
  (p.state_status = .SS_INSTALLED || p.state_status = .SS_UNPACKED) &&
    version_constraints_satisfied d p.version

/-- `pkg_constraint_satisfied` of `pkg_depends.c`. -/
def pkg_constraint_satisfied (d : DepAtom) (p : Pkg) : Bool :=
  version_constraints_satisfied d p.version

/-- `is_pkg_in_pkg_vec` of `pkg_depends.c`: membership by name, equal
version comparison and architecture. -/
def is_pkg_in_pkg_vec (vec : List Pkg) (p : Pkg) : Bool :=
  vec.any (fun q => p.name = q.name && pkg_compare_versions p.version q.version = 0 &&
    p.architecture = q.architecture)

/-- Modelled from the spec: `pkg_hash_fetch_best_installation_candidate`
lives in `pkg_hash.c`, which is not part of the sources; §4.3 of the spec
says it iterates the full provider-closure of the abstract package, collects
every concrete that matches the predicate (skipping, when architectures are
honoured, concretes whose architecture is not configured) and returns the one
maximizing (architecture-priority, version). -/
def pkg_hash_fetch_best_installation_candidate (db : PkgHash) (apkg : String)
    (pred : Pkg → Bool) : Option Pkg :=
  (db.pkgs.filter (fun q =>
      (provided_by db apkg).contains q.name && q.arch_listed && pred q)).foldl
    (fun best q =>
      match best with
      | none => some q
      | some b =>
          if q.arch_priority > b.arch_priority ||
              (q.arch_priority = b.arch_priority &&
                pkg_compare_versions q.version b.version > 0)
          then some q else some b) none

/-! ## Conflicts (`pkg_depends.c`, `pkg_hash_fetch_conflicts`) -/

/-- `is_pkg_a_replaces` of `pkg_depends.c`: the scout is replaced iff its
**name** equals the name of some abstract listed in `pkg`'s Replaces. -/
def is_pkg_a_replaces (pkg_scout pkg : Pkg) : Bool :=
  pkg.replaces.any (fun r => pkg_scout.name = r)

/-- The per-scout test of `pkg_hash_fetch_conflicts`: installed or wanted,
version constraint satisfied, and not replaced. -/
def conflict_scout_ok (pkg : Pkg) (atom : DepAtom) (scout : Pkg) : Bool :=
  (scout.state_status = .SS_INSTALLED || scout.state_want = .SW_INSTALL) &&
    version_constraints_satisfied atom scout.version && !is_pkg_a_replaces scout pkg

/-- `pkg_hash_fetch_conflicts` of `pkg_depends.c` (the C function returns
NULL for an empty result; the model returns `[]`). -/
def pkg_hash_fetch_conflicts (db : PkgHash) (pkg : Pkg) : List Pkg :=
  pkg.conflicts.foldl (fun acc conflict =>
    conflict.possibilities.foldl (fun acc atom =>
      (pkgsOfName db atom.name).foldl (fun acc scout =>
        if conflict_scout_ok pkg atom scout && !is_pkg_in_pkg_vec acc scout
        then acc ++ [scout] else acc) acc) acc) []

/-! ## Rendering a dependency (`pkg_depend_str`, `constraint_to_str`) -/

/-- `constraint_to_str` of `pkg_depends.c`. -/
def constraint_to_str : Constraint → String
  | .NONE => ""
  | .EARLIER => "< "
  | .EARLIER_EQUAL => "<= "
  | .EQUAL => "= "
  | .LATER_EQUAL => ">= "
  | .LATER => "> "

/-- `pkg_depend_str` of `pkg_depends.c`: the printable form of the `idx`-th
compound dependency. -/
def pkg_depend_str (p : Pkg) (idx : Nat) : String :=
  match p.depends.get? idx with
  | none => ""
  | some cdep =>
      String.intercalate " | " (cdep.possibilities.map (fun dep =>
        dep.name ++ match dep.version with
          | none => ""
          | some v => " (" ++ constraint_to_str dep.constraint ++ String.mk v ++ ")"))

/-! ## The resolver (`pkg_hash_fetch_unsatisfied_dependencies`)

State threaded through the recursion: the set of abstract names whose
`dependencies_checked` flag is set, the `unsatisfied` vector and `the_lost`
unresolved list (`[]` standing for the C NULL).  The recursion is given fuel;
`resolver_fuel_sufficient` (claim C4) proves that the number of unchecked
abstract names bounds the recursion depth, so enough fuel always exists.
`pkg_vec_insert` (from `pkg_vec.c`, not in the sources) is modelled as
appending to the vector. -/

/-- The result of one resolver call: updated checked set, updated
unsatisfied vector, unresolved strings, and the returned count. -/
abbrev RReact := List String × List Pkg × List String × Nat

/-- The type of the recursive call threaded through the loop helpers. -/
abbrev RecFun := List String → List Pkg → Pkg → Option RReact

/-- The scout loop of the `GREEDY_DEPEND` branch: for each concrete provider
not wanted for install, not yet visited, not already unsatisfied, recurse on
a fresh vector; if nothing is unresolved and every recursively found package
is already wanted, add the scout to the unsatisfied vector. -/
def greedyScoutLoop (rec : RecFun) :
    List Pkg → List String → List Pkg → Option (List String × List Pkg)
  | [], checked, unsat => some (checked, unsat)
  | scout :: rest, checked, unsat =>
      if scout.state_want ≠ .SW_INSTALL ∧ ¬checked.contains scout.name ∧
          ¬is_pkg_in_pkg_vec unsat scout then
        match rec checked [] scout with
        | none => none
        | some (checked', tmp, newstuff, rc) =>
            if newstuff = [] then
              if (tmp.take rc).all (fun q => q.state_want = .SW_INSTALL)
              then greedyScoutLoop rec rest checked' (unsat ++ [scout])
              else greedyScoutLoop rec rest checked' unsat
            else greedyScoutLoop rec rest checked' unsat
      else greedyScoutLoop rec rest checked unsat

/-- The provider loop of the greedy branch: each provider abstract's
concrete vector is scanned. -/
def greedyProviderLoop (db : PkgHash) (rec : RecFun) :
    List String → List String → List Pkg → Option (List String × List Pkg)
  | [], checked, unsat => some (checked, unsat)
  | pname :: rest, checked, unsat =>
      match greedyScoutLoop rec (pkgsOfName db pname) checked unsat with
      | none => none
      | some (checked', unsat') => greedyProviderLoop db rec rest checked' unsat'

/-- The atom loop of the greedy branch. -/
def greedyAtomLoop (db : PkgHash) (rec : RecFun) :
    List DepAtom → List String → List Pkg → Option (List String × List Pkg)
  | [], checked, unsat => some (checked, unsat)
  | a :: rest, checked, unsat =>
      match greedyProviderLoop db rec (provided_by db a.name) checked unsat with
      | none => none
      | some (checked', unsat') => greedyAtomLoop db rec rest checked' unsat'

/-- Pass A: first atom whose best installed candidate satisfies the
installed-and-constraint predicate (with the re-check of the source). -/
def findInstalledSatisfier (db : PkgHash) : List DepAtom → Option Pkg
  | [] => none
  | a :: rest =>
      match pkg_hash_fetch_best_installation_candidate db a.name
          (pkg_installed_and_constraint_satisfied a) with
      | some q =>
          if pkg_installed_and_constraint_satisfied a q then some q
          else findInstalledSatisfier db rest
      | none => findInstalledSatisfier db rest

/-- Pass B: first atom with any best candidate (re-checked), skipping, for
`RECOMMEND`/`SUGGEST`, candidates the user wants deinstalled or purged. -/
def findSatisfier (db : PkgHash) (ctype : DepType) : List DepAtom → Option Pkg
  | [] => none
  | a :: rest =>
      match pkg_hash_fetch_best_installation_candidate db a.name
          (pkg_constraint_satisfied a) with
      | some q =>
          if pkg_constraint_satisfied a q then
            if (ctype = .RECOMMEND ∨ ctype = .SUGGEST) ∧
                (q.state_want = .SW_DEINSTALL ∨ q.state_want = .SW_PURGE)
            then findSatisfier db ctype rest
            else some q
          else findSatisfier db ctype rest
      | none => findSatisfier db ctype rest

/-- The body of the per-compound loop of
`pkg_hash_fetch_unsatisfied_dependencies`. -/
def processCompound (db : PkgHash) (rec : RecFun) (pkg : Pkg) (idx : Nat)
    (c : CompoundDep) (checked : List String) (unsat : List Pkg)
    (lost : List String) : Option (List String × List Pkg × List String) :=
  if c.type = .GREEDY_DEPEND then
    match greedyAtomLoop db rec c.possibilities checked unsat with
    | none => none
    | some (checked', unsat') => some (checked', unsat', lost)
  else
    match findInstalledSatisfier db c.possibilities with
    | some _ => some (checked, unsat, lost)
    | none =>
        match findSatisfier db c.type c.possibilities with
        | none =>
            if c.type ≠ .RECOMMEND ∧ c.type ≠ .SUGGEST
            then some (checked, unsat, lost ++ [pkg_depend_str pkg idx])
            else some (checked, unsat, lost)
        | some satisfier =>
            if c.type = .SUGGEST then some (checked, unsat, lost)
            else
              if satisfier ≠ pkg ∧ ¬is_pkg_in_pkg_vec unsat satisfier then
                match rec checked unsat satisfier with
                | none => none
                | some (checked', unsat', newstuff, _) =>
                    some (checked', unsat' ++ [satisfier], lost ++ newstuff)
              else some (checked, unsat, lost)

/-- The per-compound loop (`for (i = 0; compound_depend->type; ...)`). -/
def depLoop (db : PkgHash) (rec : RecFun) (pkg : Pkg) :
    Nat → List CompoundDep → List String → List Pkg → List String →
    Option (List String × List Pkg × List String)
  | _, [], checked, unsat, lost => some (checked, unsat, lost)
  | i, c :: rest, checked, unsat, lost =>
      if c.type = .UNSPEC then some (checked, unsat, lost)
      else
        match processCompound db rec pkg i c checked unsat lost with
        | none => none
        | some (checked', unsat', lost') =>
            depLoop db rec pkg (i+1) rest checked' unsat' lost'

/-- Whether the depends array is absent or starts with the terminator
(`!compound_depend || !compound_depend->type`). -/
def depsEmpty : List CompoundDep → Bool
  | [] => true
  | c :: _ => c.type = .UNSPEC

/-- `pkg_hash_fetch_unsatisfied_dependencies` of `pkg_depends.c`, with fuel
bounding the recursion depth (`none` = out of fuel; never happens with fuel
above the number of unchecked abstracts, see `claim_C4_cycle_termination`). -/
def pkg_hash_fetch_unsatisfied_dependencies (db : PkgHash) :
    Nat → List String → List Pkg → Pkg → Option RReact
  | 0, _, _, _ => none
  | fuel+1, checked, unsat, pkg =>
      if checked.contains pkg.name then some (checked, unsat, [], 0)
      else
        let checked' := pkg.name :: checked
        if depsEmpty pkg.depends then some (checked', unsat, [], 0)
        else
          match depLoop db (pkg_hash_fetch_unsatisfied_dependencies db fuel) pkg 0
              pkg.depends checked' unsat [] with
          | none => none
          | some (c', u', l') => some (c', u', l', u'.length)

/-! ## Concrete fixture packages used by witnesses -/

/-- A minimal concrete package with the given name, status and dependencies. -/
def fixturePkg (n : String) (st : PkgStateStatus) (deps : List CompoundDep) : Pkg :=
  { name := n, version := ⟨0, ['1'], []⟩, architecture := "all", arch_priority := 1,
    arch_listed := true, state_want := .SW_UNKNOWN, state_status := st,
    depends := deps, conflicts := [], provides := [n], replaces := [] }

/-! ## Claim C7: a package with no dependencies resolves to the empty result -/

/-- C7: for every package whose Depends list is empty, the resolver adds
nothing to the unsatisfied vector, reports no unresolved names (`[]`, the C
NULL) and returns 0; only the visited flag of the package's abstract may be
set. -/
theorem claim_C7_no_deps (db : PkgHash) (fuel : Nat) (checked : List String)
    (unsat : List Pkg) (p : Pkg) (h : p.depends = []) :
    pkg_hash_fetch_unsatisfied_dependencies db (fuel+1) checked unsat p =
      some (if checked.contains p.name = true then checked else p.name :: checked,
        unsat, [], 0) := by
  unfold pkg_hash_fetch_unsatisfied_dependencies
  by_cases hc : checked.contains p.name = true
  · rw [if_pos hc, if_pos hc]
  · rw [if_neg hc, if_neg hc, if_pos (by simp [depsEmpty, h])]

/-- Witness for C7: a dependency-free package in an empty hash resolves to
`(no new unsatisfied, no unresolved, 0)`. -/
theorem claim_C7_no_deps_witness :
    pkg_hash_fetch_unsatisfied_dependencies ⟨[]⟩ 1 [] [] (fixturePkg "p" .SS_NOT_INSTALLED []) =
      some (["p"], [], [], 0) := by
  have h := claim_C7_no_deps ⟨[]⟩ 0 [] [] (fixturePkg "p" .SS_NOT_INSTALLED []) rfl
  rw [h]
  rfl

/-! ## Claim C8: Suggest compounds never install, and Suggest/Recommend
failures are not errors -/

/-- C8: a compound of kind `SUGGEST` never changes the resolver state: when
an (uninstalled) satisfier exists the source only logs a notice, and when no
candidate exists at all a `SUGGEST` (or `RECOMMEND`) compound adds no entry
to the unresolved list.  Stated over an arbitrary recursive call `rec`, so
the result also shows the branch never recurses. -/
theorem claim_C8_suggest (db : PkgHash) (rec : RecFun) (pkg : Pkg) (idx : Nat)
    (c : CompoundDep) (checked : List String) (unsat : List Pkg) (lost : List String) :
    (c.type = .SUGGEST →
      processCompound db rec pkg idx c checked unsat lost = some (checked, unsat, lost)) ∧
    ((c.type = .RECOMMEND ∨ c.type = .SUGGEST) →
      findInstalledSatisfier db c.possibilities = none →
      findSatisfier db c.type c.possibilities = none →
      processCompound db rec pkg idx c checked unsat lost = some (checked, unsat, lost)) := by
  constructor
  · intro ht
    unfold processCompound
    rw [if_neg (by simp [ht])]
    cases hfi : findInstalledSatisfier db c.possibilities with
    | some q => rfl
    | none =>
        cases hfs : findSatisfier db c.type c.possibilities with
        | none => simp [ht]
        | some s => simp [ht]
  · intro ht h1 h2
    unfold processCompound
    have hng : ¬c.type = .GREEDY_DEPEND := by rcases ht with h | h <;> simp [h]
    rw [if_neg hng, h1, h2, if_neg (by rcases ht with h | h <;> simp [h])]

/-- Witness for C8: a Suggest compound on an empty hash, with a recursive
call that would fail if invoked, leaves the state unchanged in both cases. -/
theorem claim_C8_suggest_witness :
    processCompound ⟨[]⟩ (fun _ _ _ => none) (fixturePkg "p" .SS_NOT_INSTALLED []) 0
        ⟨.SUGGEST, [⟨"s", .NONE, none⟩]⟩ [] [] [] = some ([], [], []) ∧
    processCompound ⟨[]⟩ (fun _ _ _ => none) (fixturePkg "p" .SS_NOT_INSTALLED []) 0
        ⟨.RECOMMEND, [⟨"s", .NONE, none⟩]⟩ [] [] [] = some ([], [], []) :=
  ⟨(claim_C8_suggest ⟨[]⟩ (fun _ _ _ => none) (fixturePkg "p" .SS_NOT_INSTALLED []) 0
      ⟨.SUGGEST, [⟨"s", .NONE, none⟩]⟩ [] [] []).1 rfl,
   (claim_C8_suggest ⟨[]⟩ (fun _ _ _ => none) (fixturePkg "p" .SS_NOT_INSTALLED []) 0
      ⟨.RECOMMEND, [⟨"s", .NONE, none⟩]⟩ [] [] []).2 (Or.inl rfl) (by decide) (by decide)⟩

/-! ## Claim C3: what pkg_hash_fetch_conflicts returns

The claim says a scout is "replaced by" pkg iff pkg.Replaces intersects the
scout's Provides.  The source's `is_pkg_a_replaces` compares the scout's
NAME against the Replaces entries instead, which differs exactly when the
scout provides a virtual name that pkg replaces without bearing that name
itself. -/

/-- Following the claim's words (not the source), for comparison with the
source's `is_pkg_a_replaces`: the scout `q` is replaced by `p` iff some
abstract package listed in `p`'s Replaces is a member of `q`'s Provides. -/
def is_replaced_by_claim (q p : Pkg) : Bool :=
  p.replaces.any (fun r => q.provides.contains r)

/-- C3 fixture: an installed package `bar` that also provides the virtual
name `virt`. -/
def c3q : Pkg :=
  { name := "bar", version := ⟨0, ['1'], []⟩, architecture := "all", arch_priority := 1,
    arch_listed := true, state_want := .SW_UNKNOWN, state_status := .SS_INSTALLED,
    depends := [], conflicts := [], provides := ["bar", "virt"], replaces := [] }

/-- C3 fixture: a package that conflicts with `bar` and replaces `virt`. -/
def c3p : Pkg :=
  { name := "new", version := ⟨0, ['2'], []⟩, architecture := "all", arch_priority := 1,
    arch_listed := true, state_want := .SW_INSTALL, state_status := .SS_NOT_INSTALLED,
    depends := [], conflicts := [⟨.CONFLICTS, [⟨"bar", .NONE, none⟩]⟩],
    provides := ["new"], replaces := ["virt"] }

/-- C3 counterexample: `c3q` provides the virtual name `virt`, which `c3p`
replaces, so under the claim's Provides-intersection rule `c3q` is replaced
and must not be reported as a conflict; but the source matches Replaces
entries against the scout's NAME only, so `pkg_hash_fetch_conflicts` still
returns `c3q`. -/
theorem claim_C3_counterexample :
    is_replaced_by_claim c3q c3p = true ∧
    is_pkg_a_replaces c3q c3p = false ∧
    pkg_hash_fetch_conflicts ⟨[c3q]⟩ c3p = [c3q] := by decide

theorem pkg_compare_versions_refl (v : Version) : pkg_compare_versions v v = 0 := by
  unfold pkg_compare_versions
  rw [if_neg (by omega), if_neg (by omega)]
  simp [verrevcmp_refl]

/-- No two distinct records of the hash share name, version (up to
`pkg_compare_versions`) and architecture — i.e. the identity used by the
`is_pkg_in_pkg_vec` dedupe test is injective on the hash. -/
abbrev NoDupIdent (db : PkgHash) : Prop :=
  ∀ q1 ∈ db.pkgs, ∀ q2 ∈ db.pkgs, q1.name = q2.name →
    pkg_compare_versions q1.version q2.version = 0 →
    q1.architecture = q2.architecture → q1 = q2

theorem in_vec_iff_mem {db : PkgHash} (hnodup : NoDupIdent db) (acc : List Pkg)
    (hacc : ∀ r ∈ acc, r ∈ db.pkgs) (s : Pkg) (hs : s ∈ db.pkgs) :
    is_pkg_in_pkg_vec acc s = true ↔ s ∈ acc := by
  unfold is_pkg_in_pkg_vec
  rw [List.any_eq_true]
  constructor
  · rintro ⟨r, hr, hmatch⟩
    simp only [Bool.and_eq_true, decide_eq_true_eq] at hmatch
    obtain ⟨⟨hn, hv⟩, ha⟩ := hmatch
    rw [hnodup s hs r (hacc r hr) hn hv ha]
    exact hr
  · intro hmem
    exact ⟨s, hmem, by simp [pkg_compare_versions_refl]⟩

/-- The innermost accumulation step of `pkg_hash_fetch_conflicts`. -/
def conflictStep (p : Pkg) (atom : DepAtom) (acc : List Pkg) (scout : Pkg) : List Pkg :=
  if conflict_scout_ok p atom scout && !is_pkg_in_pkg_vec acc scout
  then acc ++ [scout] else acc

theorem conflictStep_fold_subset (db : PkgHash) (p : Pkg) (atom : DepAtom) :
    ∀ (scouts : List Pkg) (acc : List Pkg), (∀ s ∈ scouts, s ∈ db.pkgs) →
    (∀ r ∈ acc, r ∈ db.pkgs) →
    ∀ r ∈ scouts.foldl (conflictStep p atom) acc, r ∈ db.pkgs := by
  intro scouts
  induction scouts with
  | nil => intro acc _ hacc r hr; exact hacc r hr
  | cons s rest ih =>
      intro acc hsc hacc r hr
      rw [List.foldl_cons] at hr
      apply ih _ (fun x hx => hsc x (by simp [hx])) ?_ r hr
      intro x hx
      unfold conflictStep at hx
      split at hx
      · rcases List.mem_append.mp hx with h | h
        · exact hacc x h
        · rw [List.mem_singleton.mp h]; exact hsc s (by simp)
      · exact hacc x hx

theorem conflictStep_fold_mem (db : PkgHash) (hnodup : NoDupIdent db) (p : Pkg)
    (atom : DepAtom) :
    ∀ (scouts : List Pkg) (acc : List Pkg), (∀ s ∈ scouts, s ∈ db.pkgs) →
    (∀ r ∈ acc, r ∈ db.pkgs) → ∀ q,
    (q ∈ scouts.foldl (conflictStep p atom) acc ↔
      q ∈ acc ∨ (q ∈ scouts ∧ conflict_scout_ok p atom q = true)) := by
  intro scouts
  induction scouts with
  | nil => intro acc _ _ q; simp
  | cons s rest ih =>
      intro acc hsc hacc q
      rw [List.foldl_cons]
      have hs : s ∈ db.pkgs := hsc s (by simp)
      have hrest : ∀ x ∈ rest, x ∈ db.pkgs := fun x hx => hsc x (by simp [hx])
      by_cases hok : conflict_scout_ok p atom s = true
      · by_cases hin : is_pkg_in_pkg_vec acc s = true
        · have hsacc : s ∈ acc := (in_vec_iff_mem hnodup acc hacc s hs).mp hin
          have hstep : conflictStep p atom acc s = acc := by
            unfold conflictStep; rw [if_neg]; simp [hin]
          rw [hstep, ih acc hrest hacc q]
          constructor
          · rintro (h | ⟨h1, h2⟩)
            · exact Or.inl h
            · exact Or.inr ⟨by simp [h1], h2⟩
          · rintro (h | ⟨h1, h2⟩)
            · exact Or.inl h
            · rcases List.mem_cons.mp h1 with h1 | h1
              · subst h1; exact Or.inl hsacc
              · exact Or.inr ⟨h1, h2⟩
        · have hstep : conflictStep p atom acc s = acc ++ [s] := by
            unfold conflictStep; rw [if_pos]; simp [hok, hin]
          have hsub : ∀ x ∈ acc ++ [s], x ∈ db.pkgs := by
            intro x hx
            rcases List.mem_append.mp hx with h | h
            · exact hacc x h
            · rw [List.mem_singleton.mp h]; exact hs
          rw [hstep, ih (acc ++ [s]) hrest hsub q]
          constructor
          · rintro (h | ⟨h1, h2⟩)
            · rcases List.mem_append.mp h with h | h
              · exact Or.inl h
              · rw [List.mem_singleton.mp h]
                exact Or.inr ⟨by simp, hok⟩
            · exact Or.inr ⟨by simp [h1], h2⟩
          · rintro (h | ⟨h1, h2⟩)
            · exact Or.inl (List.mem_append.mpr (Or.inl h))
            · rcases List.mem_cons.mp h1 with h1 | h1
              · subst h1; exact Or.inl (by simp)
              · exact Or.inr ⟨h1, h2⟩
      · have hstep : conflictStep p atom acc s = acc := by
          unfold conflictStep; rw [if_neg]; simp [hok]
        rw [hstep, ih acc hrest hacc q]
        constructor
        · rintro (h | ⟨h1, h2⟩)
          · exact Or.inl h
          · exact Or.inr ⟨by simp [h1], h2⟩
        · rintro (h | ⟨h1, h2⟩)
          · exact Or.inl h
          · rcases List.mem_cons.mp h1 with h1 | h1
            · subst h1; exact absurd h2 hok
            · exact Or.inr ⟨h1, h2⟩

theorem mem_pkgsOfName (db : PkgHash) (n : String) (q : Pkg) :
    q ∈ pkgsOfName db n ↔ q ∈ db.pkgs ∧ q.name = n := by
  simp [pkgsOfName, List.mem_filter]

theorem conflictAtoms_fold_subset (db : PkgHash) (p : Pkg) :
    ∀ (atoms : List DepAtom) (acc : List Pkg), (∀ r ∈ acc, r ∈ db.pkgs) →
    ∀ r ∈ atoms.foldl (fun acc atom =>
        (pkgsOfName db atom.name).foldl (conflictStep p atom) acc) acc, r ∈ db.pkgs := by
  intro atoms
  induction atoms with
  | nil => intro acc hacc r hr; exact hacc r hr
  | cons a rest ih =>
      intro acc hacc r hr
      rw [List.foldl_cons] at hr
      exact ih _ (conflictStep_fold_subset db p a _ acc
        (fun s hs => ((mem_pkgsOfName db a.name s).mp hs).1) hacc) r hr

theorem conflictAtoms_fold_mem (db : PkgHash) (hnodup : NoDupIdent db) (p : Pkg) :
    ∀ (atoms : List DepAtom) (acc : List Pkg), (∀ r ∈ acc, r ∈ db.pkgs) → ∀ q,
    (q ∈ atoms.foldl (fun acc atom =>
        (pkgsOfName db atom.name).foldl (conflictStep p atom) acc) acc ↔
      q ∈ acc ∨ ∃ atom ∈ atoms, q ∈ db.pkgs ∧ q.name = atom.name ∧
        conflict_scout_ok p atom q = true) := by
  intro atoms
  induction atoms with
  | nil => intro acc _ q; simp
  | cons a rest ih =>
      intro acc hacc q
      rw [List.foldl_cons]
      have hsc : ∀ s ∈ pkgsOfName db a.name, s ∈ db.pkgs :=
        fun s hs => ((mem_pkgsOfName db a.name s).mp hs).1
      have hacc' : ∀ r ∈ (pkgsOfName db a.name).foldl (conflictStep p a) acc, r ∈ db.pkgs :=
        conflictStep_fold_subset db p a _ acc hsc hacc
      rw [ih _ hacc' q,
        conflictStep_fold_mem db hnodup p a (pkgsOfName db a.name) acc hsc hacc q]
      simp only [List.exists_mem_cons_iff, mem_pkgsOfName]
      tauto

theorem conflicts_fold_mem (db : PkgHash) (hnodup : NoDupIdent db) (p : Pkg) :
    ∀ (cs : List CompoundDep) (acc : List Pkg), (∀ r ∈ acc, r ∈ db.pkgs) → ∀ q,
    (q ∈ cs.foldl (fun acc c =>
        c.possibilities.foldl (fun acc atom =>
          (pkgsOfName db atom.name).foldl (conflictStep p atom) acc) acc) acc ↔
      q ∈ acc ∨ ∃ c ∈ cs, ∃ atom ∈ c.possibilities, q ∈ db.pkgs ∧ q.name = atom.name ∧
        conflict_scout_ok p atom q = true) := by
  intro cs
  induction cs with
  | nil => intro acc _ q; simp
  | cons c rest ih =>
      intro acc hacc q
      rw [List.foldl_cons]
      have hacc' : ∀ r ∈ c.possibilities.foldl (fun acc atom =>
          (pkgsOfName db atom.name).foldl (conflictStep p atom) acc) acc, r ∈ db.pkgs :=
        conflictAtoms_fold_subset db p c.possibilities acc hacc
      rw [ih _ hacc' q, conflictAtoms_fold_mem db hnodup p c.possibilities acc hacc q]
      simp only [List.exists_mem_cons_iff]
      exact or_assoc

theorem conflict_scout_ok_iff (p : Pkg) (atom : DepAtom) (q : Pkg) :
    conflict_scout_ok p atom q = true ↔
      ((q.state_status = .SS_INSTALLED ∨ q.state_want = .SW_INSTALL) ∧
       version_constraints_satisfied atom q.version = true ∧
       is_pkg_a_replaces q p = false) := by
  simp [conflict_scout_ok, and_assoc]

/-- C3 (amended): membership characterization of `pkg_hash_fetch_conflicts`
with the replacement test corrected to the source's NAME-based rule.
Provided no two distinct records of the hash share (name, version,
architecture) — the identity used by the dedupe test — `q` is reported as a
conflict of `p` iff `q` is in the hash, `q` is installed or wanted
installed, `q` is NOT named by any entry of `p`'s Replaces (the Provides
lists play no role), and `q`'s name and version satisfy some atom of `p`'s
Conflicts. -/
theorem claim_C3_amended (db : PkgHash) (p q : Pkg) (hnodup : NoDupIdent db) :
    q ∈ pkg_hash_fetch_conflicts db p ↔
      q ∈ db.pkgs ∧
      (q.state_status = .SS_INSTALLED ∨ q.state_want = .SW_INSTALL) ∧
      is_pkg_a_replaces q p = false ∧
      ∃ c ∈ p.conflicts, ∃ atom ∈ c.possibilities, q.name = atom.name ∧
        version_constraints_satisfied atom q.version = true := by
  have hdef : pkg_hash_fetch_conflicts db p =
      p.conflicts.foldl (fun acc c =>
        c.possibilities.foldl (fun acc atom =>
          (pkgsOfName db atom.name).foldl (conflictStep p atom) acc) acc) [] := rfl
  rw [hdef, conflicts_fold_mem db hnodup p p.conflicts [] (by simp) q]
  simp only [List.not_mem_nil, false_or]
  constructor
  · rintro ⟨c, hc, atom, hatom, hdb, hname, hok⟩
    obtain ⟨hsw, hvcs, hrep⟩ := (conflict_scout_ok_iff p atom q).mp hok
    exact ⟨hdb, hsw, hrep, c, hc, atom, hatom, hname, hvcs⟩
  · rintro ⟨hdb, hsw, hrep, c, hc, atom, hatom, hname, hvcs⟩
    exact ⟨c, hc, atom, hatom, hdb, hname,
      (conflict_scout_ok_iff p atom q).mpr ⟨hsw, hvcs, hrep⟩⟩

/-- Witness for the amended C3 characterization on the concrete fixture. -/
theorem claim_C3_amended_witness : c3q ∈ pkg_hash_fetch_conflicts ⟨[c3q]⟩ c3p :=
  (claim_C3_amended ⟨[c3q]⟩ c3p c3q (by decide)).mpr
    ⟨by decide, Or.inl (by decide), by decide,
     ⟨.CONFLICTS, [⟨"bar", .NONE, none⟩]⟩, by decide, ⟨"bar", .NONE, none⟩,
     by decide, by decide, by decide⟩

/-! ## Claim C4: the cycle guard makes the resolver terminate

The measure is the number of abstract names in the hash whose
`dependencies_checked` flag is still clear.  Each recursive call either hits
the guard and returns immediately, or marks a fresh name before recursing,
so the recursion depth is bounded by the measure and any fuel above it is
never exhausted. -/

theorem contains_iff_mem (l : List String) (x : String) : l.contains x = true ↔ x ∈ l :=
  List.elem_iff

/-- Number of abstract names of the hash not yet marked as checked. -/
def uncheckedCount (db : PkgHash) (checked : List String) : Nat :=
  (((db.pkgs.map (fun p => p.name)).dedup).filter (fun n => ¬checked.contains n)).length

/-- The checked set only grows along the resolver. -/
def Grows (c c' : List String) : Prop := ∀ x, x ∈ c → x ∈ c'

theorem grows_refl (c : List String) : Grows c c := fun _ h => h

theorem grows_trans {a b c : List String} (h1 : Grows a b) (h2 : Grows b c) : Grows a c :=
  fun x hx => h2 x (h1 x hx)

theorem grows_cons (n : String) (c : List String) : Grows c (n :: c) :=
  fun _ hx => List.mem_cons_of_mem n hx

theorem filter_sublist_of_imp (l : List String) (p q : String → Bool)
    (h : ∀ a, p a = true → q a = true) : List.Sublist (l.filter p) (l.filter q) := by
  induction l with
  | nil => simp
  | cons a as ih =>
      by_cases hp : p a = true
      · rw [List.filter_cons_of_pos hp, List.filter_cons_of_pos (h a hp)]
        exact ih.cons₂ a
      · rw [List.filter_cons_of_neg (by simpa using hp)]
        by_cases hq : q a = true
        · rw [List.filter_cons_of_pos hq]
          exact ih.cons a
        · rw [List.filter_cons_of_neg (by simpa using hq)]
          exact ih

theorem uncheckedCount_mono (db : PkgHash) {c c' : List String} (h : Grows c c') :
    uncheckedCount db c' ≤ uncheckedCount db c := by
  apply List.Sublist.length_le
  apply filter_sublist_of_imp
  intro a ha
  simp only [decide_eq_true_eq] at ha ⊢
  intro hc
  exact ha ((contains_iff_mem _ _).mpr (h a ((contains_iff_mem _ _).mp hc)))

theorem uncheckedCount_decr (db : PkgHash) (checked : List String) (pname : String)
    (hmem : pname ∈ db.pkgs.map (fun p => p.name)) (hnc : ¬checked.contains pname = true) :
    uncheckedCount db (pname :: checked) < uncheckedCount db checked := by
  unfold uncheckedCount
  have hsub : List.Sublist
      (((db.pkgs.map (fun p => p.name)).dedup).filter (fun n => ¬(pname :: checked).contains n))
      (((db.pkgs.map (fun p => p.name)).dedup).filter (fun n => ¬checked.contains n)) := by
    apply filter_sublist_of_imp
    intro a ha
    simp only [decide_eq_true_eq, contains_iff_mem, List.mem_cons] at ha ⊢
    intro hc
    exact ha (Or.inr hc)
  have hin : pname ∈ ((db.pkgs.map (fun p => p.name)).dedup).filter
      (fun n => ¬checked.contains n) := by
    rw [List.mem_filter]
    exact ⟨List.mem_dedup.mpr hmem, by simpa using hnc⟩
  have hout : pname ∉ ((db.pkgs.map (fun p => p.name)).dedup).filter
      (fun n => ¬(pname :: checked).contains n) := by
    rw [List.mem_filter]
    rintro ⟨-, habs⟩
    simp [contains_iff_mem] at habs
  have hle := hsub.length_le
  rcases Nat.lt_or_ge (((db.pkgs.map (fun p => p.name)).dedup).filter
      (fun n => ¬(pname :: checked).contains n)).length
      (((db.pkgs.map (fun p => p.name)).dedup).filter (fun n => ¬checked.contains n)).length
    with h | h
  · exact h
  · exfalso
    have heq := hsub.eq_of_length (by omega)
    rw [heq] at hout
    exact hout hin

/-- Any package delivered by the best-candidate selection is in the hash. -/
theorem best_candidate_mem (db : PkgHash) (apkg : String) (pred : Pkg → Bool) (q : Pkg)
    (h : pkg_hash_fetch_best_installation_candidate db apkg pred = some q) : q ∈ db.pkgs := by
  unfold pkg_hash_fetch_best_installation_candidate at h
  have H : ∀ (l : List Pkg) (acc : Option Pkg), (∀ b, acc = some b → b ∈ db.pkgs) →
      (∀ x ∈ l, x ∈ db.pkgs) →
      ∀ q, l.foldl (fun best q =>
        match best with
        | none => some q
        | some b =>
            if q.arch_priority > b.arch_priority ||
                (q.arch_priority = b.arch_priority &&
                  pkg_compare_versions q.version b.version > 0)
            then some q else some b) acc = some q → q ∈ db.pkgs := by
    intro l
    induction l with
    | nil =>
        intro acc hacc _ q hq
        exact hacc q hq
    | cons x xs ih =>
        intro acc hacc hl q hq
        apply ih _ ?_ (fun y hy => hl y (by simp [hy])) q hq
        intro b hb
        cases acc with
        | none =>
            simp at hb
            rw [← hb]
            exact hl x (by simp)
        | some b0 =>
            simp only at hb
            split at hb
            · injection hb with hb
              rw [← hb]
              exact hl x (by simp)
            · injection hb with hb
              rw [← hb]
              exact hacc b0 rfl
  exact H _ none (by simp) (fun x hx => (List.mem_filter.mp hx).1) q h

theorem findSatisfier_mem (db : PkgHash) (ctype : DepType) (atoms : List DepAtom) (q : Pkg)
    (h : findSatisfier db ctype atoms = some q) : q ∈ db.pkgs := by
  induction atoms with
  | nil => simp [findSatisfier] at h
  | cons a rest ih =>
      unfold findSatisfier at h
      cases hb : pkg_hash_fetch_best_installation_candidate db a.name
          (pkg_constraint_satisfied a) with
      | none =>
          rw [hb] at h
          exact ih h
      | some b =>
          rw [hb] at h
          simp only at h
          split at h
          · split at h
            · exact ih h
            · injection h with h
              rw [← h]
              exact best_candidate_mem db a.name _ b hb
          · exact ih h

/-- Soundness property of the recursive call at a given fuel. -/
def RecOK (db : PkgHash) (rec : RecFun) (f : Nat) : Prop :=
  ∀ checked unsat q, q ∈ db.pkgs → uncheckedCount db checked < f →
    ∃ out : RReact, rec checked unsat q = some out ∧ Grows checked out.1

theorem greedyScoutLoop_ok (db : PkgHash) (rec : RecFun) (f : Nat) (hrec : RecOK db rec f) :
    ∀ (scouts : List Pkg) (checked : List String) (unsat : List Pkg),
    (∀ s ∈ scouts, s ∈ db.pkgs) → uncheckedCount db checked < f →
    ∃ out : List String × List Pkg, greedyScoutLoop rec scouts checked unsat = some out ∧
      Grows checked out.1 := by
  intro scouts
  induction scouts with
  | nil => exact fun checked unsat _ _ => ⟨(checked, unsat), rfl, grows_refl _⟩
  | cons scout rest ih =>
      intro checked unsat hmem hcnt
      unfold greedyScoutLoop
      by_cases hguard : scout.state_want ≠ .SW_INSTALL ∧ ¬checked.contains scout.name ∧
          ¬is_pkg_in_pkg_vec unsat scout
      · rw [if_pos hguard]
        obtain ⟨⟨c', tmp, newstuff, rc⟩, hrw, hgr⟩ :=
          hrec checked [] scout (hmem scout (by simp)) hcnt
        rw [hrw]
        dsimp only
        have hcnt' : uncheckedCount db c' < f :=
          lt_of_le_of_lt (uncheckedCount_mono db hgr) hcnt
        have hmem' : ∀ s ∈ rest, s ∈ db.pkgs := fun s hs => hmem s (by simp [hs])
        by_cases hn : newstuff = []
        · rw [if_pos hn]
          by_cases hall : (tmp.take rc).all (fun q => q.state_want = .SW_INSTALL) = true
          · rw [if_pos hall]
            obtain ⟨out, hout, hgr2⟩ := ih c' (unsat ++ [scout]) hmem' hcnt'
            exact ⟨out, hout, grows_trans hgr hgr2⟩
          · rw [if_neg hall]
            obtain ⟨out, hout, hgr2⟩ := ih c' unsat hmem' hcnt'
            exact ⟨out, hout, grows_trans hgr hgr2⟩
        · rw [if_neg hn]
          obtain ⟨out, hout, hgr2⟩ := ih c' unsat hmem' hcnt'
          exact ⟨out, hout, grows_trans hgr hgr2⟩
      · rw [if_neg hguard]
        exact ih checked unsat (fun s hs => hmem s (by simp [hs])) hcnt

theorem greedyProviderLoop_ok (db : PkgHash) (rec : RecFun) (f : Nat) (hrec : RecOK db rec f) :
    ∀ (provs : List String) (checked : List String) (unsat : List Pkg),
    uncheckedCount db checked < f →
    ∃ out : List String × List Pkg, greedyProviderLoop db rec provs checked unsat = some out ∧
      Grows checked out.1 := by
  intro provs
  induction provs with
  | nil => exact fun checked unsat _ => ⟨(checked, unsat), rfl, grows_refl _⟩
  | cons pname rest ih =>
      intro checked unsat hcnt
      unfold greedyProviderLoop
      obtain ⟨⟨c', u'⟩, hrw, hgr⟩ := greedyScoutLoop_ok db rec f hrec
        (pkgsOfName db pname) checked unsat
        (fun s hs => (List.mem_filter.mp hs).1) hcnt
      rw [hrw]
      obtain ⟨out, hout, hgr2⟩ := ih c' u'
        (lt_of_le_of_lt (uncheckedCount_mono db hgr) hcnt)
      exact ⟨out, hout, grows_trans hgr hgr2⟩

theorem greedyAtomLoop_ok (db : PkgHash) (rec : RecFun) (f : Nat) (hrec : RecOK db rec f) :
    ∀ (atoms : List DepAtom) (checked : List String) (unsat : List Pkg),
    uncheckedCount db checked < f →
    ∃ out : List String × List Pkg, greedyAtomLoop db rec atoms checked unsat = some out ∧
      Grows checked out.1 := by
  intro atoms
  induction atoms with
  | nil => exact fun checked unsat _ => ⟨(checked, unsat), rfl, grows_refl _⟩
  | cons a rest ih =>
      intro checked unsat hcnt
      unfold greedyAtomLoop
      obtain ⟨⟨c', u'⟩, hrw, hgr⟩ := greedyProviderLoop_ok db rec f hrec
        (provided_by db a.name) checked unsat hcnt
      rw [hrw]
      obtain ⟨out, hout, hgr2⟩ := ih c' u'
        (lt_of_le_of_lt (uncheckedCount_mono db hgr) hcnt)
      exact ⟨out, hout, grows_trans hgr hgr2⟩

theorem processCompound_ok (db : PkgHash) (rec : RecFun) (f : Nat) (hrec : RecOK db rec f)
    (pkg : Pkg) (idx : Nat) (c : CompoundDep) (checked : List String) (unsat : List Pkg)
    (lost : List String) (hcnt : uncheckedCount db checked < f) :
    ∃ out : List String × List Pkg × List String,
      processCompound db rec pkg idx c checked unsat lost = some out ∧
      Grows checked out.1 := by
  unfold processCompound
  by_cases hg : c.type = .GREEDY_DEPEND
  · rw [if_pos hg]
    obtain ⟨⟨c', u'⟩, hrw, hgr⟩ := greedyAtomLoop_ok db rec f hrec c.possibilities
      checked unsat hcnt
    rw [hrw]
    exact ⟨(c', u', lost), rfl, hgr⟩
  · rw [if_neg hg]
    cases hfi : findInstalledSatisfier db c.possibilities with
    | some q => exact ⟨(checked, unsat, lost), rfl, grows_refl _⟩
    | none =>
        cases hfs : findSatisfier db c.type c.possibilities with
        | none =>
            by_cases hr : c.type ≠ .RECOMMEND ∧ c.type ≠ .SUGGEST
            · rw [if_pos hr]
              exact ⟨(checked, unsat, lost ++ [pkg_depend_str pkg idx]), rfl, grows_refl _⟩
            · rw [if_neg hr]
              exact ⟨(checked, unsat, lost), rfl, grows_refl _⟩
        | some satisfier =>
            dsimp only
            by_cases hs : c.type = .SUGGEST
            · rw [if_pos hs]
              exact ⟨(checked, unsat, lost), rfl, grows_refl _⟩
            · rw [if_neg hs]
              by_cases hins : satisfier ≠ pkg ∧ ¬is_pkg_in_pkg_vec unsat satisfier
              · rw [if_pos hins]
                obtain ⟨⟨c', u', l', n'⟩, hrw, hgr⟩ := hrec checked unsat satisfier
                  (findSatisfier_mem db c.type c.possibilities satisfier hfs) hcnt
                rw [hrw]
                exact ⟨(c', u' ++ [satisfier], lost ++ l'), rfl, hgr⟩
              · rw [if_neg hins]
                exact ⟨(checked, unsat, lost), rfl, grows_refl _⟩

theorem depLoop_ok (db : PkgHash) (rec : RecFun) (f : Nat) (hrec : RecOK db rec f) (pkg : Pkg) :
    ∀ (cs : List CompoundDep) (i : Nat) (checked : List String) (unsat : List Pkg)
      (lost : List String), uncheckedCount db checked < f →
    ∃ out : List String × List Pkg × List String,
      depLoop db rec pkg i cs checked unsat lost = some out ∧ Grows checked out.1 := by
  intro cs
  induction cs with
  | nil => exact fun i checked unsat lost _ => ⟨(checked, unsat, lost), rfl, grows_refl _⟩
  | cons c rest ih =>
      intro i checked unsat lost hcnt
      unfold depLoop
      by_cases hu : c.type = .UNSPEC
      · rw [if_pos hu]
        exact ⟨(checked, unsat, lost), rfl, grows_refl _⟩
      · rw [if_neg hu]
        obtain ⟨⟨c', u', l'⟩, hrw, hgr⟩ :=
          processCompound_ok db rec f hrec pkg i c checked unsat lost hcnt
        rw [hrw]
        obtain ⟨out, hout, hgr2⟩ := ih (i+1) c' u' l'
          (lt_of_le_of_lt (uncheckedCount_mono db hgr) hcnt)
        exact ⟨out, hout, grows_trans hgr hgr2⟩

/-- The main fuel-sufficiency induction: with fuel exceeding the number of
unchecked abstract names, the resolver never runs out of fuel, and the
checked set only grows. -/
theorem resolver_fuel_ok (db : PkgHash) :
    ∀ (f : Nat), RecOK db (pkg_hash_fetch_unsatisfied_dependencies db f) f := by
  intro f
  induction f with
  | zero => intro checked unsat q _ hcnt; omega
  | succ f ih =>
      intro checked unsat q hq hcnt
      unfold pkg_hash_fetch_unsatisfied_dependencies
      by_cases hc : checked.contains q.name = true
      · rw [if_pos hc]
        exact ⟨(checked, unsat, [], 0), rfl, grows_refl _⟩
      · rw [if_neg hc]
        by_cases hd : depsEmpty q.depends = true
        · rw [if_pos hd]
          exact ⟨(q.name :: checked, unsat, [], 0), rfl, grows_cons _ _⟩
        · rw [if_neg hd]
          have hcnt' : uncheckedCount db (q.name :: checked) < f := by
            have := uncheckedCount_decr db checked q.name
              (List.mem_map.mpr ⟨q, hq, rfl⟩) hc
            omega
          obtain ⟨⟨c', u', l'⟩, hrw, hgr⟩ := depLoop_ok db
            (pkg_hash_fetch_unsatisfied_dependencies db f) f ih q q.depends 0
            (q.name :: checked) unsat [] hcnt'
          rw [hrw]
          exact ⟨(c', u', l', u'.length), rfl,
            grows_trans (grows_cons _ _) hgr⟩

/-- C4: the resolver terminates on every input, including cyclic dependency
graphs.  First conjunct: a second visit to an already-checked abstract
returns immediately with 0 dependencies and a NULL (empty) unresolved list,
without touching the unsatisfied vector.  Second conjunct: with fuel above
the number of unchecked abstract names — which bounds the recursion depth,
since every non-trivial call marks a fresh abstract before recursing — the
fuelled resolver never exhausts its fuel, so the C recursion terminates. -/
theorem claim_C4_cycle_termination :
    (∀ (db : PkgHash) (fuel : Nat) (checked : List String) (unsat : List Pkg) (p : Pkg),
        checked.contains p.name = true →
        pkg_hash_fetch_unsatisfied_dependencies db (fuel+1) checked unsat p =
          some (checked, unsat, [], 0)) ∧
    (∀ (db : PkgHash) (fuel : Nat) (checked : List String) (unsat : List Pkg) (p : Pkg),
        p ∈ db.pkgs → uncheckedCount db checked < fuel →
        (pkg_hash_fetch_unsatisfied_dependencies db fuel checked unsat p).isSome = true) := by
  constructor
  · intro db fuel checked unsat p h
    unfold pkg_hash_fetch_unsatisfied_dependencies
    rw [if_pos h]
  · intro db fuel checked unsat p hp hcnt
    obtain ⟨out, hout, -⟩ := resolver_fuel_ok db fuel checked unsat p hp hcnt
    rw [hout]
    rfl

/-- Witness for C4: a two-package dependency cycle (`X` depends on `Y`,
`Y` depends on `X`), resolved with fuel 3 > 2 unchecked abstracts; and a
second visit returning immediately. -/
theorem claim_C4_cycle_termination_witness :
    (pkg_hash_fetch_unsatisfied_dependencies ⟨[]⟩ 1 ["p"] []
        (fixturePkg "p" .SS_NOT_INSTALLED []) = some (["p"], [], [], 0)) ∧
    (pkg_hash_fetch_unsatisfied_dependencies
        ⟨[fixturePkg "X" .SS_NOT_INSTALLED [⟨.DEPEND, [⟨"Y", .NONE, none⟩]⟩],
          fixturePkg "Y" .SS_NOT_INSTALLED [⟨.DEPEND, [⟨"X", .NONE, none⟩]⟩]]⟩ 3 [] []
        (fixturePkg "X" .SS_NOT_INSTALLED [⟨.DEPEND, [⟨"Y", .NONE, none⟩]⟩])).isSome = true :=
  ⟨claim_C4_cycle_termination.1 ⟨[]⟩ 0 ["p"] [] (fixturePkg "p" .SS_NOT_INSTALLED [])
      (by decide),
   claim_C4_cycle_termination.2
      ⟨[fixturePkg "X" .SS_NOT_INSTALLED [⟨.DEPEND, [⟨"Y", .NONE, none⟩]⟩],
        fixturePkg "Y" .SS_NOT_INSTALLED [⟨.DEPEND, [⟨"X", .NONE, none⟩]⟩]]⟩ 3 [] []
      (fixturePkg "X" .SS_NOT_INSTALLED [⟨.DEPEND, [⟨"Y", .NONE, none⟩]⟩])
      (by decide) (by decide)⟩

/-! ## Claim C6: pkg_merge is field-wise "take new only when old absent"

`pkg_merge` of `pkg.c` walks the fields of the old record and adopts the
new record's value when the old one is NULL (pointers/strings) or 0
(ints/flags) — except for PROVIDES, whose condition is
`!ab || !ab[0] || !ab[1]`: the old Provides array is also discarded when it
is non-NULL but holds fewer than two entries. -/

/-- The fields `pkg_merge` touches.  C strings and pointer-valued fields are
`Option`s (NULL = `none`); C `int` fields are `Int` (absent = 0).  The
conffile splice moves the new list's nodes into the old record, which is
value-wise adoption of the list (a NULL new list leaves the old one NULL);
`installed_files_ref_cnt` bookkeeping is not modelled. -/
structure MergePkg where
  auto_installed : Int
  src : Option String
  dest : Option String
  architecture : Option String
  arch_priority : Int
  section_ : Option String
  maintainer : Option String
  description : Option String
  depends : Option (List CompoundDep)
  provides : Option (List String)
  conflicts : Option (List CompoundDep)
  replaces : Option (List String)
  filename : Option String
  local_filename : Option String
  tmp_unpack_dir : Option String
  md5sum : Option String
  sha256sum : Option String
  size : Int
  installed_size : Int
  priority : Option String
  source : Option String
  conffiles : Option (List String)
  installed_files : Option (List String)
  essential : Int
deriving DecidableEq, Repr

/-- `pkg_merge` of `pkg.c` (the resulting old record; the C function also
NULLs the transferred pointers in the new record and returns 0). -/
def pkg_merge (o n : MergePkg) : MergePkg :=
  { auto_installed := if o.auto_installed = 0 then n.auto_installed else o.auto_installed,
    src := if o.src = none then n.src else o.src,
    dest := if o.dest = none then n.dest else o.dest,
    architecture := if o.architecture = none then n.architecture else o.architecture,
    arch_priority := if o.arch_priority = 0 then n.arch_priority else o.arch_priority,
    section_ := if o.section_ = none then n.section_ else o.section_,
    maintainer := if o.maintainer = none then n.maintainer else o.maintainer,
    description := if o.description = none then n.description else o.description,
    depends := if o.depends = none then n.depends else o.depends,
    provides := if o.provides = none ∨ (o.provides.getD []).length < 2
                then n.provides else o.provides,
    conflicts := if o.conflicts = none then n.conflicts else o.conflicts,
    replaces := if o.replaces = none then n.replaces else o.replaces,
    filename := if o.filename = none then n.filename else o.filename,
    local_filename := if o.local_filename = none then n.local_filename else o.local_filename,
    tmp_unpack_dir := if o.tmp_unpack_dir = none then n.tmp_unpack_dir else o.tmp_unpack_dir,
    md5sum := if o.md5sum = none then n.md5sum else o.md5sum,
    sha256sum := if o.sha256sum = none then n.sha256sum else o.sha256sum,
    size := if o.size = 0 then n.size else o.size,
    installed_size := if o.installed_size = 0 then n.installed_size else o.installed_size,
    priority := if o.priority = none then n.priority else o.priority,
    source := if o.source = none then n.source else o.source,
    conffiles := if o.conffiles = none then n.conffiles else o.conffiles,
    installed_files := if o.installed_files = none then n.installed_files else o.installed_files,
    essential := if o.essential = 0 then n.essential else o.essential }

/-- C6 fixture: an old record with every field present; its Provides array
is non-NULL but holds a single entry. -/
def c6old : MergePkg :=
  { auto_installed := 1, src := some "osrc", dest := some "odest",
    architecture := some "all", arch_priority := 10, section_ := some "osec",
    maintainer := some "om", description := some "odesc", depends := some [],
    provides := some ["a"], conflicts := some [], replaces := some [],
    filename := some "of", local_filename := some "olf", tmp_unpack_dir := some "otd",
    md5sum := some "omd5", sha256sum := some "osha", size := 5, installed_size := 6,
    priority := some "opri", source := some "osou", conffiles := some ["ocf"],
    installed_files := some ["oif"], essential := 1 }

/-- C6 fixture: a new record with every field present and different. -/
def c6new : MergePkg :=
  { auto_installed := 2, src := some "nsrc", dest := some "ndest",
    architecture := some "arm", arch_priority := 20, section_ := some "nsec",
    maintainer := some "nm", description := some "ndesc", depends := some [],
    provides := some ["b", "c"], conflicts := some [], replaces := some [],
    filename := some "nf", local_filename := some "nlf", tmp_unpack_dir := some "ntd",
    md5sum := some "nmd5", sha256sum := some "nsha", size := 7, installed_size := 8,
    priority := some "npri", source := some "nsou", conffiles := some ["ncf"],
    installed_files := some ["nif"], essential := 2 }

/-- C6 counterexample: the old record's Provides is non-NULL (a one-entry
array), yet the merge replaces it with the new record's Provides — the
claim says a non-null old value is always left unchanged. -/
theorem claim_C6_counterexample :
    c6old.provides ≠ none ∧ c6old.provides ≠ c6new.provides ∧
    (pkg_merge c6old c6new).provides = c6new.provides := by decide

/-- C6 (amended): field-wise characterization of `pkg_merge`.  For every
merged field except Provides, a present old value (non-NULL pointer/string,
non-zero int) is preserved and an absent one is adopted from the new
record.  Provides is the exception: the old array is preserved only when it
holds at least two entries; a NULL or shorter array (in practice: only the
package's own abstract) is replaced by the new record's Provides. -/
theorem claim_C6_amended (o n : MergePkg) :
    (∀ l, o.provides = some l → 2 ≤ l.length → (pkg_merge o n).provides = o.provides) ∧
    (∀ l, o.provides = some l → l.length < 2 → (pkg_merge o n).provides = n.provides) ∧
    (o.provides = none → (pkg_merge o n).provides = n.provides) ∧
    (o.auto_installed ≠ 0 → (pkg_merge o n).auto_installed = o.auto_installed) ∧
    (o.auto_installed = 0 → (pkg_merge o n).auto_installed = n.auto_installed) ∧
    (o.src ≠ none → (pkg_merge o n).src = o.src) ∧
    (o.src = none → (pkg_merge o n).src = n.src) ∧
    (o.dest ≠ none → (pkg_merge o n).dest = o.dest) ∧
    (o.dest = none → (pkg_merge o n).dest = n.dest) ∧
    (o.architecture ≠ none → (pkg_merge o n).architecture = o.architecture) ∧
    (o.architecture = none → (pkg_merge o n).architecture = n.architecture) ∧
    (o.arch_priority ≠ 0 → (pkg_merge o n).arch_priority = o.arch_priority) ∧
    (o.arch_priority = 0 → (pkg_merge o n).arch_priority = n.arch_priority) ∧
    (o.section_ ≠ none → (pkg_merge o n).section_ = o.section_) ∧
    (o.section_ = none → (pkg_merge o n).section_ = n.section_) ∧
    (o.maintainer ≠ none → (pkg_merge o n).maintainer = o.maintainer) ∧
    (o.maintainer = none → (pkg_merge o n).maintainer = n.maintainer) ∧
    (o.description ≠ none → (pkg_merge o n).description = o.description) ∧
    (o.description = none → (pkg_merge o n).description = n.description) ∧
    (o.depends ≠ none → (pkg_merge o n).depends = o.depends) ∧
    (o.depends = none → (pkg_merge o n).depends = n.depends) ∧
    (o.conflicts ≠ none → (pkg_merge o n).conflicts = o.conflicts) ∧
    (o.conflicts = none → (pkg_merge o n).conflicts = n.conflicts) ∧
    (o.replaces ≠ none → (pkg_merge o n).replaces = o.replaces) ∧
    (o.replaces = none → (pkg_merge o n).replaces = n.replaces) ∧
    (o.filename ≠ none → (pkg_merge o n).filename = o.filename) ∧
    (o.filename = none → (pkg_merge o n).filename = n.filename) ∧
    (o.local_filename ≠ none → (pkg_merge o n).local_filename = o.local_filename) ∧
    (o.local_filename = none → (pkg_merge o n).local_filename = n.local_filename) ∧
    (o.tmp_unpack_dir ≠ none → (pkg_merge o n).tmp_unpack_dir = o.tmp_unpack_dir) ∧
    (o.tmp_unpack_dir = none → (pkg_merge o n).tmp_unpack_dir = n.tmp_unpack_dir) ∧
    (o.md5sum ≠ none → (pkg_merge o n).md5sum = o.md5sum) ∧
    (o.md5sum = none → (pkg_merge o n).md5sum = n.md5sum) ∧
    (o.sha256sum ≠ none → (pkg_merge o n).sha256sum = o.sha256sum) ∧
    (o.sha256sum = none → (pkg_merge o n).sha256sum = n.sha256sum) ∧
    (o.size ≠ 0 → (pkg_merge o n).size = o.size) ∧
    (o.size = 0 → (pkg_merge o n).size = n.size) ∧
    (o.installed_size ≠ 0 → (pkg_merge o n).installed_size = o.installed_size) ∧
    (o.installed_size = 0 → (pkg_merge o n).installed_size = n.installed_size) ∧
    (o.priority ≠ none → (pkg_merge o n).priority = o.priority) ∧
    (o.priority = none → (pkg_merge o n).priority = n.priority) ∧
    (o.source ≠ none → (pkg_merge o n).source = o.source) ∧
    (o.source = none → (pkg_merge o n).source = n.source) ∧
    (o.conffiles ≠ none → (pkg_merge o n).conffiles = o.conffiles) ∧
    (o.conffiles = none → (pkg_merge o n).conffiles = n.conffiles) ∧
    (o.installed_files ≠ none → (pkg_merge o n).installed_files = o.installed_files) ∧
    (o.installed_files = none → (pkg_merge o n).installed_files = n.installed_files) ∧
    (o.essential ≠ 0 → (pkg_merge o n).essential = o.essential) ∧
    (o.essential = 0 → (pkg_merge o n).essential = n.essential) := by
  constructor
  · intro l h1 h2
    simp [pkg_merge, h1, Nat.not_lt.mpr h2]
  constructor
  · intro l h1 h2
    simp [pkg_merge, h1, h2]
  refine ⟨?_, ?_, ?_, ?_, ?_, ?_, ?_, ?_, ?_, ?_, ?_, ?_, ?_, ?_, ?_, ?_, ?_, ?_, ?_, ?_,
    ?_, ?_, ?_, ?_, ?_, ?_, ?_, ?_, ?_, ?_, ?_, ?_, ?_, ?_, ?_, ?_, ?_, ?_, ?_, ?_, ?_,
    ?_, ?_, ?_, ?_, ?_, ?_⟩ <;>
  · intro h
    simp [pkg_merge, h]

/-- Witness for the amended C6 characterization on the concrete fixtures:
the one-entry old Provides is replaced, while a present string field and a
non-zero int field are preserved. -/
theorem claim_C6_amended_witness :
    (pkg_merge c6old c6new).provides = c6new.provides ∧
    (pkg_merge c6old c6new).src = c6old.src ∧
    (pkg_merge c6old c6new).size = c6old.size := by
  obtain ⟨-, h2, -, -, -, h6, -, -, -, -, -, -, -, -, -, -, -, -, -, -, -, -, -, -, -, -,
    -, -, -, -, -, -, -, -, -, h36, -, -, -, -, -, -, -, -, -, -, -, -, -⟩ :=
    claim_C6_amended c6old c6new
  exact ⟨h2 ["a"] rfl (by decide), h6 (by decide), h36 (by decide)⟩

/-! ## Claim C9: conffile modification detection (`conffile.c`) -/

/-- C `strcmp` on NUL-free strings: 0 on equality, otherwise the difference
of the first differing bytes (an exhausted string contributes byte 0). -/
def strcmpL : List Char → List Char → Int
  | [], [] => 0
  | [], c :: _ => -((c.toNat : Int))
  | c :: _, [] => (c.toNat : Int)
  | a :: as, b :: bs => if a = b then strcmpL as bs else (a.toNat : Int) - (b.toNat : Int)

theorem strcmpL_eq_zero_iff (a : List Char) : ∀ (b : List Char),
    nulFree a = true → nulFree b = true → (strcmpL a b = 0 ↔ a = b) := by
  induction a with
  | nil =>
      intro b _ hb
      cases b with
      | nil => simp [strcmpL]
      | cons c cs =>
          have hc : c.toNat ≠ 0 := by
            unfold nulFree at hb
            rw [List.all_eq_true] at hb
            simpa using hb c (by simp)
          simp only [strcmpL]
          constructor
          · intro h; omega
          · intro h; cases h
  | cons x xs ih =>
      intro b ha hb
      have hx : x.toNat ≠ 0 := by
        unfold nulFree at ha
        rw [List.all_eq_true] at ha
        simpa using ha x (by simp)
      have hxs : nulFree xs = true := by
        unfold nulFree at ha ⊢
        rw [List.all_eq_true] at ha ⊢
        exact fun c hc => ha c (by simp [hc])
      cases b with
      | nil =>
          simp only [strcmpL]
          constructor
          · intro h; omega
          · intro h; cases h
      | cons y ys =>
          have hys : nulFree ys = true := by
            unfold nulFree at hb ⊢
            rw [List.all_eq_true] at hb ⊢
            exact fun c hc => hb c (by simp [hc])
          by_cases hxy : x = y
          · subst hxy
            simp only [strcmpL, if_true]
            rw [ih ys hxs hys]
            simp
          · simp only [strcmpL, if_neg hxy]
            constructor
            · intro h
              exfalso
              apply hxy
              have hnat : x.toNat = y.toNat := by omega
              have hch := congrArg Char.ofNat hnat
              rwa [Char.ofNat_toNat, Char.ofNat_toNat] at hch
            · intro h
              injection h with h1 _
              exact absurd h1 hxy

/-- A conffile record: `name` and the recorded digest `value` (NULL =
`none`). -/
structure Conffile where
  name : List Char
  value : Option (List Char)

/-- The filesystem digest oracle: what `file_md5sum_alloc` and
`file_sha256sum_alloc` return for the conffile's (root-prefixed) path;
`none` models an unreadable file (the C functions return NULL). -/
structure DigestOracle where
  md5 : List Char → Option (List Char)
  sha256 : List Char → Option (List Char)

/-- `conffile_has_been_modified` of `conffile.c` (built with HAVE_MD5):
a NULL recorded digest returns 1; a recorded digest longer than 33 chars
selects SHA-256, otherwise MD5; a NULL computed digest leaves the initial
`ret = 1`; otherwise `ret = strcmp(chksum, value)`.  Nonzero means
modified. -/
def conffile_has_been_modified (fs : DigestOracle) (cf : Conffile) : Int :=
  match cf.value with
  | none => 1
  | some value =>
      let chksum := if value.length > 33 then fs.sha256 cf.name else fs.md5 cf.name
      match chksum with
      | none => 1
      | some chk => strcmpL chk value

/-- C9: `conffile_has_been_modified` reports modified (nonzero) whenever
the recorded digest is absent or the file's digest cannot be computed; it
selects MD5 when the recorded digest's length is at most 33 and SHA-256
when it is longer; and with a computed digest in hand it reports modified
exactly when that digest differs from the recorded one (digests as NUL-free
C strings). -/
theorem claim_C9_conffile_modified (fs : DigestOracle) (cf : Conffile) :
    (cf.value = none → conffile_has_been_modified fs cf ≠ 0) ∧
    (∀ v, cf.value = some v → v.length ≤ 33 → fs.md5 cf.name = none →
        conffile_has_been_modified fs cf ≠ 0) ∧
    (∀ v, cf.value = some v → 33 < v.length → fs.sha256 cf.name = none →
        conffile_has_been_modified fs cf ≠ 0) ∧
    (∀ v d, cf.value = some v → nulFree v = true → v.length ≤ 33 →
        fs.md5 cf.name = some d → nulFree d = true →
        (conffile_has_been_modified fs cf ≠ 0 ↔ d ≠ v)) ∧
    (∀ v d, cf.value = some v → nulFree v = true → 33 < v.length →
        fs.sha256 cf.name = some d → nulFree d = true →
        (conffile_has_been_modified fs cf ≠ 0 ↔ d ≠ v)) := by
  refine ⟨?_, ?_, ?_, ?_, ?_⟩
  · intro h
    simp [conffile_has_been_modified, h]
  · intro v hv hlen hnone
    simp [conffile_has_been_modified, hv, Nat.not_lt.mpr hlen, hnone]
  · intro v hv hlen hnone
    simp [conffile_has_been_modified, hv, hlen, hnone]
  · intro v d hv hnv hlen hd hnd
    rw [show conffile_has_been_modified fs cf = strcmpL d v from by
      simp [conffile_has_been_modified, hv, Nat.not_lt.mpr hlen, hd]]
    exact not_congr (strcmpL_eq_zero_iff d v hnd hnv)
  · intro v d hv hnv hlen hd hnd
    rw [show conffile_has_been_modified fs cf = strcmpL d v from by
      simp [conffile_has_been_modified, hv, hlen, hd]]
    exact not_congr (strcmpL_eq_zero_iff d v hnd hnv)

/-- C9 fixture: an oracle computing MD5 digest `x` for every path, with
SHA-256 unreadable. -/
def c9fs : DigestOracle := ⟨fun _ => some ['x'], fun _ => none⟩

/-- C9 fixture: a conffile with recorded (short, hence MD5) digest `m`. -/
def c9cf : Conffile := ⟨['f'], some ['m']⟩

/-- Witness for C9: a differing MD5 digest reports modified, and an absent
recorded digest reports modified. -/
theorem claim_C9_conffile_modified_witness :
    conffile_has_been_modified c9fs c9cf ≠ 0 ∧
    conffile_has_been_modified c9fs ⟨['f'], none⟩ ≠ 0 :=
  ⟨((claim_C9_conffile_modified c9fs c9cf).2.2.2.1 ['m'] ['x'] rfl (by decide) (by decide)
      rfl (by decide)).mpr (by decide),
   (claim_C9_conffile_modified c9fs ⟨['f'], none⟩).1 rfl⟩

/-! ## Claim C10: state-flag serialization round-trips -/

/-- Modelled from the spec: the state-flag bit values live in `pkg.h`,
which is not part of the sources.  §3.4 of the spec lists the bitset
members, and the serialization map of `pkg.c` names Ok, ReinstReq, Hold,
Replace, NoPrune, Prefer, Obsolete, User; they are modelled as Ok = 0 and
consecutive bits for the rest. -/
def SF_OK : Nat := 0

/-- Modelled from the spec: see `SF_OK`. -/
def SF_REINSTREQ : Nat := 1

/-- Modelled from the spec: see `SF_OK`. -/
def SF_HOLD : Nat := 2

/-- Modelled from the spec: see `SF_OK`. -/
def SF_REPLACE : Nat := 4

/-- Modelled from the spec: see `SF_OK`. -/
def SF_NOPRUNE : Nat := 8

/-- Modelled from the spec: see `SF_OK`. -/
def SF_PREFER : Nat := 16

/-- Modelled from the spec: see `SF_OK`. -/
def SF_OBSOLETE : Nat := 32

/-- Modelled from the spec: see `SF_OK`. -/
def SF_USER : Nat := 64

/-- Modelled from the spec: the union of the serializable (non-volatile)
flag bits, per the claim's list (ok, reinstreq, hold, replace, noprune,
prefer, obsolete, user). -/
def SF_NONVOLATILE_FLAGS : Nat :=
  SF_REINSTREQ ||| SF_HOLD ||| SF_REPLACE ||| SF_NOPRUNE |||
  SF_PREFER ||| SF_OBSOLETE ||| SF_USER

/-- `pkg_state_flag_map` of `pkg.c`, in source order. -/
def pkg_state_flag_map : List (Nat × List Char) :=
  [(SF_OK, "ok".toList), (SF_REINSTREQ, "reinstreq".toList), (SF_HOLD, "hold".toList),
   (SF_REPLACE, "replace".toList), (SF_NOPRUNE, "noprune".toList),
   (SF_PREFER, "prefer".toList), (SF_OBSOLETE, "obsolete".toList),
   (SF_USER, "user".toList)]

/-- `pkg_state_flag_to_str` of `pkg.c`: mask to the non-volatile flags,
emit `ok` for the empty set, otherwise append `name,` for every set flag in
map order and squash the trailing comma. -/
def pkg_state_flag_to_str (sf0 : Nat) : List Char :=
  let sf := sf0 &&& SF_NONVOLATILE_FLAGS
  if sf = 0 then "ok".toList
  else
    (pkg_state_flag_map.foldl (fun acc e =>
      if sf &&& e.1 ≠ 0 then acc ++ e.2 ++ [','] else acc) []).dropLast

/-- The single scan of `pkg_state_flag_from_str`: walk the map in order;
on a name-prefix match, accumulate the flag and consume the name, then
consume a comma or stop; on a mismatch move to the next map entry without
consuming. -/
def fromStrLoop : List (Nat × List Char) → List Char → Nat → Nat
  | [], _, sf => sf
  | e :: rest, str, sf =>
      if e.2.isPrefixOf str then
        match str.drop e.2.length with
        | ',' :: str2 => fromStrLoop rest str2 (sf ||| e.1)
        | _ => sf ||| e.1
      else fromStrLoop rest str sf

/-- `pkg_state_flag_from_str` of `pkg.c`: `ok` parses to the empty set,
anything else through the single map scan. -/
def pkg_state_flag_from_str (str : List Char) : Nat :=
  if str = "ok".toList then SF_OK
  else fromStrLoop pkg_state_flag_map str SF_OK

/-- C10: the state-flag serialization round-trips.  The empty flag set
serializes to `ok` and `ok` parses back to the empty set; and for every
flag set drawn from the non-volatile flags, parsing the serialized form
returns exactly the set restricted to the non-volatile flags. -/
theorem claim_C10_flag_roundtrip :
    pkg_state_flag_to_str 0 = "ok".toList ∧
    pkg_state_flag_from_str ("ok".toList) = 0 ∧
    ∀ sf : Nat, sf < 128 →
      pkg_state_flag_from_str (pkg_state_flag_to_str sf) = sf &&& SF_NONVOLATILE_FLAGS := by
  refine ⟨rfl, rfl, ?_⟩
  decide

/-- Witness for C10 at the concrete flag set 37 = reinstreq + replace +
obsolete. -/
theorem claim_C10_flag_roundtrip_witness :
    37 < 128 ∧
    pkg_state_flag_from_str (pkg_state_flag_to_str 37) = 37 &&& SF_NONVOLATILE_FLAGS :=
  ⟨by decide, claim_C10_flag_roundtrip.2.2 37 (by decide)⟩

end Opkg
